import Mathlib

/-!
Verification development for the purgoVox audio-mastering pipeline.

This file gives a shallow embedding of the concurrency core of the
repository — the worker pool/scheduler (`src/public/js/src/jobs/workerPool.js`),
the parallel orchestrator (`src/public/js/main/ffmpeg-pipeline.js`), the
per-chunk worker message handler (`src/public/js/worker/process-chunk.worker.js`),
the final-mastering filter builder (`masterEncode`,
`src/public/js/src/jobs/main/step0-sanitize.js`) and the RMS log parser
(`src/public/js/src/ffmpeg/parse/rmsLevel.js`) — and proves or refutes the
specification claims about them.

JavaScript numbers are modelled as rationals (`ℚ`) except where the source
computes a transcendental power (`Math.pow(10, x/20)`), which is modelled
over `ℝ`.  JavaScript strings are modelled as `List Char`.
-/

namespace PurgoVox

/-! ### JavaScript number and `parseFloat` model

`parseRmsLevel` (src/public/js/src/ffmpeg/parse/rmsLevel.js) runs
`fileContent.match(/Overall\.RMS_level=(.+)/)` and returns
`parseFloat(match[1]) || 0.00`, throwing when there is no match.
We model JS numbers as an inductive with NaN and infinities, and
`parseFloat` as a longest-valid-prefix decimal parser. -/

/-- A JavaScript number as relevant to the parsers: a finite value (modelled
as a rational), an infinity, or NaN. -/
inductive JSNum where
  | num (q : ℚ)
  | posInf
  | negInf
  | nan
deriving DecidableEq

/-- JS truthiness of a number: `NaN` and `±0` are falsy, everything else
(including infinities) is truthy.  Used to model `x || 0.00`. -/
def jsTruthy : JSNum → Bool
  | .num q => q != 0
  | .nan => false
  | .posInf => true
  | .negInf => true

/-- Whitespace skipped by `parseFloat` before reading a number. -/
def isJsWs (c : Char) : Bool :=
  c = ' ' || c = '\t' || c = '\n' || c = '\r' || c = '\x0b' || c = '\x0c'

/-- Numeric value of a decimal digit character. -/
def digitVal (c : Char) : ℕ := c.toNat - '0'.toNat

/-- Leading run of decimal digits and the remainder of the input. -/
def takeDigits (cs : List Char) : List Char × List Char :=
  (cs.takeWhile Char.isDigit, cs.dropWhile Char.isDigit)

/-- Value of a digit run read most-significant-first. -/
def digitsToNat (ds : List Char) : ℕ :=
  ds.foldl (fun acc c => acc * 10 + digitVal c) 0

/-- The exponent contributed by a trailing `e`/`E` part, if a well-formed
one is present at the head of the remaining input (as in `parseFloat`,
an exponent with no digits is not consumed). -/
def parseExpPart (cs : List Char) : ℤ :=
  match cs with
  | [] => 0
  | c :: rest =>
    if c = 'e' || c = 'E' then
      match rest with
      | [] => 0
      | s :: rest2 =>
        if s = '+' then
          (if (takeDigits rest2).1.isEmpty then 0 else (digitsToNat (takeDigits rest2).1 : ℤ))
        else if s = '-' then
          (if (takeDigits rest2).1.isEmpty then 0 else -(digitsToNat (takeDigits rest2).1 : ℤ))
        else
          (if (takeDigits (s :: rest2)).1.isEmpty then 0
           else (digitsToNat (takeDigits (s :: rest2)).1 : ℤ))
    else 0

/-- The literal `Infinity`, accepted by `parseFloat`. -/
def infinityChars : List Char := ("Infinity").toList

/-- Parse the unsigned part of a `parseFloat` input: `Infinity`, or a
decimal literal `digits [. digits] [exponent]` requiring at least one digit;
anything else is NaN. -/
def jsParseFloatAux (cs : List Char) (neg : Bool) : JSNum :=
  if infinityChars.isPrefixOf cs then (if neg then .negInf else .posInf)
  else
    let intPart := takeDigits cs
    match intPart.2 with
    | '.' :: rest2 =>
      let fracPart := takeDigits rest2
      if intPart.1.isEmpty && fracPart.1.isEmpty then .nan
      else
        let mant : ℚ :=
          (digitsToNat intPart.1 : ℚ) + (digitsToNat fracPart.1 : ℚ) / (10 : ℚ) ^ fracPart.1.length
        let e := parseExpPart fracPart.2
        .num ((if neg then -mant else mant) * (10 : ℚ) ^ e)
    | _ =>
      if intPart.1.isEmpty then .nan
      else
        let mant : ℚ := (digitsToNat intPart.1 : ℚ)
        let e := parseExpPart intPart.2
        .num ((if neg then -mant else mant) * (10 : ℚ) ^ e)

/-- Model of JavaScript `parseFloat`: skip whitespace, read an optional
sign, then the longest valid decimal prefix; NaN when none exists. -/
def jsParseFloat (cs : List Char) : JSNum :=
  match cs.dropWhile isJsWs with
  | '+' :: rest => jsParseFloatAux rest false
  | '-' :: rest => jsParseFloatAux rest true
  | other => jsParseFloatAux other false

/-- The characters `Overall.RMS_level=` matched literally by the regex
`/Overall\.RMS_level=(.+)/`. -/
def rmsPat : List Char := ("Overall.RMS_level=").toList

/-- Line terminators excluded by `.` in a JS regex. -/
def isLineTerm (c : Char) : Bool :=
  c = '\n' || c = '\r' || c = Char.ofNat 0x2028 || c = Char.ofNat 0x2029

/-- First match of `/Overall\.RMS_level=(.+)/`: scan left to right; at the
first position where the literal pattern is followed by at least one
non-line-terminator character, capture the maximal such run. -/
def findRmsCapture : List Char → Option (List Char)
  | [] => none
  | c :: rest =>
    if rmsPat.isPrefixOf (c :: rest) then
      let cap := ((c :: rest).drop rmsPat.length).takeWhile (fun d => !isLineTerm d)
      if cap.isEmpty then findRmsCapture rest else some cap
    else findRmsCapture rest

/-- The error thrown when the regex does not match. -/
def rmsErrorMessage : String :=
  "Log Parser Failed: Could not find Overall.RMS_level in the analysis file."

/-- Embedding of `parseRmsLevel` (src/public/js/src/ffmpeg/parse/rmsLevel.js):
on a match, return `parseFloat(match[1]) || 0.00`; otherwise throw. -/
def parseRmsLevel (fileContent : List Char) : Except String JSNum :=
  match findRmsCapture fileContent with
  | some cap =>
    let v := jsParseFloat cap
    .ok (if jsTruthy v then v else .num 0)
  | none => .error rmsErrorMessage

instance : DecidableEq (Except String JSNum) := fun a b =>
  match a, b with
  | .ok x, .ok y => decidable_of_iff (x = y) (by simp)
  | .error x, .error y => decidable_of_iff (x = y) (by simp)
  | .ok _, .error _ => isFalse (by simp)
  | .error _, .ok _ => isFalse (by simp)

/-- An analysis file with no `Overall.RMS_level=` line, exercising the throw path. -/
def rmsNoMatchInput : List Char := ("lavfi.astats.1.DC_offset=0.000001").toList

end PurgoVox

open PurgoVox

attribute [local semireducible] Rat.mul Rat.add Rat.inv Rat.sub in
/-- Claim C7, counterexample to the final conjunct: the matched value `abc` is
neither `-inf` nor parsable as a number, yet `parseRmsLevel` is not a hard
failure — `parseFloat` yields NaN, which `|| 0.00` silently converts to a
returned number `0.00`. -/
theorem C7_rms_unparsable_counterexample :
    parseRmsLevel (("Overall.RMS_level=abc").toList) = .ok (.num 0) := by
  decide

attribute [local semireducible] Rat.mul Rat.add Rat.inv Rat.sub in
/-- Claim C7 (amended): on a line `Overall.RMS_level=-inf` the parser returns
`0.00`; on `Overall.RMS_level=-23.4` it returns `-23.4`; with no matching line
it throws the parser error; but a matched value whose `parseFloat` result is
falsy (NaN — including `-inf` and unparsable garbage — or `±0`) yields the
number `0.00` rather than a hard failure. -/
theorem C7_rms_parser_amended :
    parseRmsLevel (("Overall.RMS_level=-inf").toList) = .ok (.num 0)
    ∧ parseRmsLevel (("Overall.RMS_level=-23.4").toList) = .ok (.num (-117/5))
    ∧ (∀ s, findRmsCapture s = none → parseRmsLevel s = .error rmsErrorMessage)
    ∧ (∀ s cap, findRmsCapture s = some cap → jsTruthy (jsParseFloat cap) = false →
        parseRmsLevel s = .ok (.num 0)) := by
  refine ⟨by decide, by decide, ?_, ?_⟩
  · intro s h
    simp [parseRmsLevel, h]
  · intro s cap h1 h2
    simp [parseRmsLevel, h1, h2]

/-- Witness for the quantified conjuncts of `C7_rms_parser_amended`, at the
concrete inputs `rmsNoMatchInput` and `Overall.RMS_level=xyz`. -/
theorem C7_rms_parser_amended_witness :
    parseRmsLevel rmsNoMatchInput = .error rmsErrorMessage
    ∧ parseRmsLevel (("Overall.RMS_level=xyz").toList) = .ok (.num 0) :=
  ⟨C7_rms_parser_amended.2.2.1 rmsNoMatchInput (by decide),
   C7_rms_parser_amended.2.2.2 (("Overall.RMS_level=xyz").toList) (("xyz").toList)
     (by decide) (by decide)⟩

namespace PurgoVox

/-! ### JS string helpers shared by the worker and the orchestrator -/

/-- The character for decimal digit `d`. -/
def digitChar (d : ℕ) : Char := Char.ofNat ('0'.toNat + d)

/-- Decimal rendering with structural fuel (any fuel above the number of
digits gives the digits, most significant first). -/
def natToCharsAux : ℕ → ℕ → List Char
  | 0, _ => []
  | f + 1, n =>
    if n < 10 then [digitChar n]
    else natToCharsAux f (n / 10) ++ [digitChar (n % 10)]

/-- Decimal rendering of a natural number, as JS `String(n)`. -/
def natToChars (n : ℕ) : List Char := natToCharsAux (n + 1) n

/-- JS `s.padStart(4, '0')`: prepend zeros up to length 4 (no-op when the
string is already at least 4 long). -/
def padStart4 (cs : List Char) : List Char := List.replicate (4 - cs.length) '0' ++ cs

/-- `String(n).padStart(4, '0')`. -/
def pad4 (n : ℕ) : List Char := padStart4 (natToChars n)

/-! ### WorkerPool.initialize (src/public/js/src/jobs/workerPool.js, lines 70-103)

During initialization each worker's `onmessage` handler counts `ready`
messages, resolving the promise when the count reaches `poolSize`, and
rejects on a `status: 'error'` message.  A fatal uncaught worker error
instead fires `_handleWorkerError` (lines 157-182): during initialization
`workerState.get(worker.id)` is `undefined` (no job held), and the
"initialization rejection" path reads `worker.rejectPromise` — a property
that no code in the file ever assigns — so `initReject` is `undefined` and
the promise is left untouched. -/

/-- An event observed by the pool during initialization: a worker posts
`ready`, posts a `status: 'error'` message, or raises a fatal uncaught
error (the `worker.onerror` path). -/
inductive InitEvent where
  | ready (workerId : ℕ)
  | errorMsg (workerId : ℕ)
  | crash (workerId : ℕ)
deriving DecidableEq

/-- How the `initialize()` promise has settled, if it has. -/
inductive InitOutcome where
  | resolved
  | rejectedSetup (workerId : ℕ)
deriving DecidableEq

/-- First settlement wins: a settled promise ignores later settlements. -/
def settleInit (s : Option InitOutcome) (o : InitOutcome) : Option InitOutcome :=
  match s with
  | none => some o
  | some w => some w

/-- State of one `initialize()` call: how many `ready` messages have been
counted and whether the promise has settled. -/
structure InitState where
  readyCount : ℕ
  settled : Option InitOutcome
deriving DecidableEq

/-- One initialization-phase event, as handled by the code: `ready`
increments the counter and resolves when it reaches `poolSize`; an error
message rejects; a fatal crash does nothing to the promise because
`worker.rejectPromise` is never assigned. -/
def initStep (poolSize : ℕ) (s : InitState) (e : InitEvent) : InitState :=
  match e with
  | .ready _ =>
    let rc := s.readyCount + 1
    if rc = poolSize then { readyCount := rc, settled := settleInit s.settled .resolved }
    else { s with readyCount := rc }
  | .errorMsg wid => { s with settled := settleInit s.settled (.rejectedSetup wid) }
  | .crash _ => s

/-- Run `initialize()` for a pool of `poolSize` workers against a sequence
of initialization events. -/
def runInit (poolSize : ℕ) (events : List InitEvent) : InitState :=
  events.foldl (initStep poolSize) ⟨0, none⟩

end PurgoVox

/-- Claim C3 is right and the code is wrong (code bug): with a pool of 2
workers, if worker 0 crashes fatally before reporting ready and worker 1
reports ready, `initialize()` neither resolves nor rejects — it hangs —
because `_handleWorkerError` reads `worker.rejectPromise`, which no code
assigns, even though its own comment says it should "reject the main
initialization promise".  By contrast a reported setup error does reject,
and all-ready does resolve. -/
theorem C3_initialize_crash_never_rejects :
    runInit 2 [.crash 0, .ready 1] = ⟨1, none⟩
    ∧ runInit 2 [.errorMsg 0, .ready 1] = ⟨1, some (.rejectedSetup 0)⟩
    ∧ runInit 2 [.ready 0, .ready 1] = ⟨2, some .resolved⟩ := by
  decide

namespace PurgoVox

/-! ### Per-chunk worker message handler
(src/public/js/worker/process-chunk.worker.js)

The worker reacts to `{command: 'init'}` and `{command: 'process', ...}`
messages.  The external collaborators — the FFmpeg engine load and the four
pass modules — are abstracted as an oracle supplying their outcomes; every
engine invocation and virtual-filesystem access the handler performs is
recorded as an explicit effect. -/

/-- Channel layout of a chunk. -/
inductive ChannelLayout where
  | mono
  | stereo
deriving DecidableEq

/-- The four boolean mastering options selected by the user. -/
structure MasteringOptions where
  gate : Bool
  clarity : Bool
  tonal : Bool
  softClip : Bool
deriving DecidableEq

/-- The five measured loudness values produced by pass 1. -/
structure LoudnessData where
  measured_I : ℚ
  measured_TP : ℚ
  measured_LRA : ℚ
  measured_thresh : ℚ
  target_offset : ℚ
deriving DecidableEq

/-- A command message received by the worker. -/
inductive WorkerCmd where
  | init
  | process (chunkIndex : ℕ) (chunkData : List ℕ) (channelLayout : ChannelLayout)
      (masteringOptions : MasteringOptions)

/-- A message posted by the worker back to the pool. -/
inductive WorkerReply where
  | ready
  | errorReply (context : String) (message : String)
  | progress (chunkIndex : ℕ) (message : String)
  | success (chunkIndex : ℕ) (processedData : List ℕ)
deriving DecidableEq

/-- A side effect performed by the worker: loading the engine, a virtual
filesystem access, or one of the four engine passes. -/
inductive WorkerEffect where
  | engineLoad
  | createDir (path : List Char)
  | writeFile (path : List Char) (data : List ℕ)
  | enginePass (passNumber : ℕ)
  | readFile (path : List Char)
  | deleteFile (path : List Char)
deriving DecidableEq

/-- Outcomes of the worker's external collaborators: the engine load and
the four pass modules, plus the final `readFile` of the produced chunk. -/
structure WorkerOracle where
  initFFmpeg : Except String Unit
  pass1AnalyzeLoudness : Except String LoudnessData
  pass2NormalizeLoudness : LoudnessData → Except String (List Char)
  pass3AnalyzeNormalized : List Char → Except String ℚ
  pass4MasterEncode : List Char → ℚ → MasteringOptions → Except String (List Char)
  readProcessedFile : List Char → List ℕ

/-- Mutable state of the worker script: whether `ffmpeg` has been loaded,
the `isInitialized` flag, and the accumulated `logStore` contents. -/
structure WorkerState where
  ffmpegLoaded : Bool
  isInitialized : Bool
  logs : String
deriving DecidableEq

def ctxInitialization : String := "initialization"

def ctxProcessing : String := "processing"

def notInitializedMessage : String := "Worker is not initialized."

def pass1Message : String := "Pass 1/4: Analyzing Loudness..."

def pass2Message : String := "Pass 2/4: Applying Loudness Correction..."

def pass3Message : String := "Pass 3/4: Analyzing for Mastering..."

def pass4Message : String := "Pass 4/4: Applying Final Mastering..."

def workLogSeparator : String := "\n\nFull Worker Log:\n"

/-- The error message posted on a processing failure:
`error.message` followed by the full worker log. -/
def processErrorMessage (m : String) (logs : String) : String :=
  m ++ workLogSeparator ++ logs

/-- The chunk file path `/work/chunk_NNNN.wav` written by the worker. -/
def chunkFilepath (chunkIndex : ℕ) : List Char :=
  ("/work/chunk_").toList ++ pad4 chunkIndex ++ (".wav").toList

/-- Embedding of the worker's `self.onmessage` handler.  Returns the new
worker state, the replies posted (in order) and the effects performed (in
order). -/
def workerOnMessage (o : WorkerOracle) (st : WorkerState) (cmd : WorkerCmd) :
    WorkerState × List WorkerReply × List WorkerEffect :=
  match cmd with
  | .init =>
    if st.ffmpegLoaded then
      ({ st with isInitialized := true }, [.ready], [])
    else
      match o.initFFmpeg with
      | .ok _ =>
        ({ st with ffmpegLoaded := true, isInitialized := true }, [.ready],
         [.engineLoad, .createDir (("/work").toList)])
      | .error m =>
        (st, [.errorReply ctxInitialization m], [.engineLoad])
  | .process chunkIndex chunkData _ opts =>
    if st.isInitialized = false then
      (st, [.errorReply ctxProcessing notInitializedMessage], [])
    else
      let fp := chunkFilepath chunkIndex
      let err := fun (m : String) (replies : List WorkerReply) (effs : List WorkerEffect) =>
        (st, replies ++ [.errorReply ctxProcessing (processErrorMessage m st.logs)], effs)
      match o.pass1AnalyzeLoudness with
      | .error m => err m [.progress chunkIndex pass1Message]
          [.writeFile fp chunkData, .enginePass 1]
      | .ok loudnessData =>
        match o.pass2NormalizeLoudness loudnessData with
        | .error m => err m [.progress chunkIndex pass1Message, .progress chunkIndex pass2Message]
            [.writeFile fp chunkData, .enginePass 1, .enginePass 2]
        | .ok normalizedFile =>
          match o.pass3AnalyzeNormalized normalizedFile with
          | .error m => err m
              [.progress chunkIndex pass1Message, .progress chunkIndex pass2Message,
               .progress chunkIndex pass3Message]
              [.writeFile fp chunkData, .enginePass 1, .enginePass 2, .enginePass 3]
          | .ok rmsLevel =>
            match o.pass4MasterEncode normalizedFile rmsLevel opts with
            | .error m => err m
                [.progress chunkIndex pass1Message, .progress chunkIndex pass2Message,
                 .progress chunkIndex pass3Message, .progress chunkIndex pass4Message]
                [.writeFile fp chunkData, .enginePass 1, .enginePass 2, .enginePass 3,
                 .enginePass 4]
            | .ok processedFilename =>
              let processedData := o.readProcessedFile processedFilename
              (st,
               [.progress chunkIndex pass1Message, .progress chunkIndex pass2Message,
                .progress chunkIndex pass3Message, .progress chunkIndex pass4Message,
                .success chunkIndex processedData],
               [.writeFile fp chunkData, .enginePass 1, .enginePass 2, .enginePass 3,
                .enginePass 4, .readFile processedFilename, .deleteFile fp,
                .deleteFile processedFilename])

/-- A concrete oracle whose collaborators all succeed, for witnesses. -/
def workerOracle0 : WorkerOracle where
  initFFmpeg := .ok ()
  pass1AnalyzeLoudness := .ok ⟨-18, -2, 5, -30, 0⟩
  pass2NormalizeLoudness := fun _ => .ok (("/work/chunk_0000_norm.wav").toList)
  pass3AnalyzeNormalized := fun _ => .ok (-20)
  pass4MasterEncode := fun _ _ _ => .ok (("/work/chunk_0000_mastered.mp3").toList)
  readProcessedFile := fun _ => [1, 2, 3]

end PurgoVox

/-- Claim C10: a `process` command received before a successful `init`
draws exactly one reply — a processing error whose message is
`Worker is not initialized.` — and the worker performs no engine
invocation, no file access and no state change. -/
theorem C10_uninitialized_process (o : WorkerOracle) (st : WorkerState) (ci : ℕ)
    (cd : List ℕ) (cl : ChannelLayout) (mo : MasteringOptions)
    (h : st.isInitialized = false) :
    workerOnMessage o st (.process ci cd cl mo) =
      (st, [.errorReply ctxProcessing notInitializedMessage], []) := by
  simp [workerOnMessage, h]

/-- Witness for `C10_uninitialized_process` at a concrete fresh worker
state and a concrete process command. -/
theorem C10_uninitialized_process_witness :
    workerOnMessage workerOracle0 ⟨false, false, ""⟩
        (.process 0 [5] .mono ⟨true, true, true, true⟩) =
      (⟨false, false, ""⟩, [.errorReply ctxProcessing notInitializedMessage], []) :=
  C10_uninitialized_process workerOracle0 ⟨false, false, ""⟩ 0 [5] .mono
    ⟨true, true, true, true⟩ rfl

namespace PurgoVox

/-! ### masterEncode filter chain
(`masterEncode`, pass 4, in src/public/js/src/jobs/main/step0-sanitize.js,
lines 77-134; the identical chain also appears in
src/public/js/src/jobs/main/step3-process-chunks.js)

The code pushes filter strings onto `masteringFilters`; each constructor
below stands for one pushed string and carries the numbers the source
interpolates into it.  `Math.pow(10, x)` is modelled as the real power. -/

/-- One filter stage pushed by `masterEncode`, in source order:
`adynamicequalizer=dfrequency=350:...:threshold=${demudThreshold}:...`,
`adynamicequalizer=dfrequency=7000:...:threshold=22:...`,
`alimiter=limit=0.9`, `agate=threshold=${gateThresholdLinear}`,
`equalizer=f=8000:t=h:g=3`, `equalizer=f=92:...`, `equalizer=f=185:...`,
`equalizer=f=5920:...`, `asoftclip=type=atan`. -/
inductive MasterFilter where
  | demudDynamicEq (threshold : ℝ)
  | highFreqDynamicEq (threshold : ℝ)
  | limiter (limit : ℝ)
  | gate (threshold : ℝ)
  | clarityEq
  | tonalEq92
  | tonalEq185
  | tonalEq5920
  | softClip

/-- The linear gate threshold `Math.pow(10, (rmsLevel - 18) / 20)`. -/
noncomputable def gateThresholdLinear (rmsLevel : ℝ) : ℝ :=
  (10 : ℝ) ^ ((rmsLevel - 18) / 20)

/-- Embedding of the filter-list construction in `masterEncode`: the three
unconditional pushes, then the four conditional groups in source order. -/
noncomputable def masterEncodeFilters (rmsLevel : ℝ) (options : MasteringOptions) :
    List MasterFilter :=
  let demudThreshold := rmsLevel + 3
  let fs0 : List MasterFilter :=
    [.demudDynamicEq demudThreshold, .highFreqDynamicEq 22, .limiter 0.9]
  let fs1 := fs0 ++ (if options.gate then [.gate (gateThresholdLinear rmsLevel)] else [])
  let fs2 := fs1 ++ (if options.clarity then [.clarityEq] else [])
  let fs3 := fs2 ++ (if options.tonal then [.tonalEq92, .tonalEq185, .tonalEq5920] else [])
  fs3 ++ (if options.softClip then [.softClip] else [])

end PurgoVox

/-- Claim C8: for every RMS level `r` and every combination of the four
mastering options, the encode pass's filter list is the de-mud dynamic EQ
at threshold `r + 3`, the fixed dynamic EQ at threshold `22`, the limiter
at ceiling `0.9`, then — in this fixed order — a gate at linear threshold
`10 ^ ((r - 18) / 20)` iff `gate`, one clarity stage iff `clarity`, the
three tonal stages iff `tonal`, and the soft-clip stage iff `softClip`;
and at `r = -20` the gate's linear threshold is `0.0126` to within
`1 / 10000`. -/
theorem C8_masterEncode_filter_chain :
    (∀ (r : ℝ) (o : MasteringOptions),
      masterEncodeFilters r o =
        [.demudDynamicEq (r + 3), .highFreqDynamicEq 22, .limiter 0.9]
          ++ (if o.gate then [.gate ((10 : ℝ) ^ ((r - 18) / 20))] else [])
          ++ (if o.clarity then [.clarityEq] else [])
          ++ (if o.tonal then [.tonalEq92, .tonalEq185, .tonalEq5920] else [])
          ++ (if o.softClip then [.softClip] else []))
    ∧ |gateThresholdLinear (-20) - 0.0126| < 1 / 10000 := by
  constructor
  · intro r o
    rfl
  · have hexp : (((-20 : ℝ) - 18) / 20) = -(19 / 10 : ℝ) := by norm_num
    have hxpos : 0 < gateThresholdLinear (-20) :=
      Real.rpow_pos_of_pos (by norm_num) _
    have hx10 : gateThresholdLinear (-20) ^ (10 : ℕ) = ((10 : ℝ) ^ (19 : ℕ))⁻¹ := by
      rw [gateThresholdLinear, hexp, ← Real.rpow_natCast ((10 : ℝ) ^ (-(19 / 10 : ℝ))) 10,
        ← Real.rpow_mul (by norm_num)]
      have h2 : (-(19 / 10 : ℝ)) * ((10 : ℕ) : ℝ) = -((19 : ℕ) : ℝ) := by push_cast; ring
      rw [h2, Real.rpow_neg (by norm_num), Real.rpow_natCast]
    have hlow : (0.0125 : ℝ) < gateThresholdLinear (-20) := by
      refine lt_of_pow_lt_pow_left₀ 10 (le_of_lt hxpos) ?_
      rw [hx10]
      norm_num
    have hhigh : gateThresholdLinear (-20) < (0.0127 : ℝ) := by
      refine lt_of_pow_lt_pow_left₀ 10 (by norm_num) ?_
      rw [hx10]
      norm_num
    rw [abs_lt]
    constructor <;> linarith

namespace PurgoVox

/-! ### Worker pool scheduler (src/public/js/src/jobs/workerPool.js)

State after a successful `initialize()`: the `workers` array (each element
carrying `id` and the dynamically-added `isBusy` flag), the FIFO `jobQueue`,
the `activeJobs` map (chunkIndex → pending-job record) and the
`workerState` map (worker id → chunkIndex).  The promise returned by each
`dispatch` call is identified by a token (allocated in dispatch order);
`futures` tracks, per token, how many times the code has attempted to
settle it and the first settlement value.  `assignLog` records every
`_assignJob` call as a `(workerId, chunkIndex)` pair, in order.

JS `Map` get/set/delete (no iteration is used by the source) is modelled
by functions `ℕ → Option ℕ`; the `workers` array stays a list because
`dispatch` picks the first non-busy worker in array order. -/

/-- One element of the pool's `workers` array. -/
structure WorkerUnit where
  id : ℕ
  isBusy : Bool
deriving DecidableEq

/-- An entry of the FIFO `jobQueue`: the job message's chunk index plus the
token of the promise created for it by `dispatch`. -/
structure QueuedJob where
  chunkIndex : ℕ
  token : ℕ
deriving DecidableEq

/-- An error used to reject a job's future: a worker-reported processing
error, or the crash error built by `_handleWorkerError`, which identifies
the worker id and chunk index (`Worker N crashed while processing chunk C`). -/
inductive PoolError where
  | workerReported (message : String)
  | crash (workerId : ℕ) (chunkIndex : ℕ)
deriving DecidableEq

/-- The value a job's future resolves with: `{chunkIndex, processedData}`. -/
structure ChunkResult where
  chunkIndex : ℕ
  processedData : List ℕ
deriving DecidableEq

instance : DecidableEq (Except PoolError ChunkResult) := fun a b =>
  match a, b with
  | .ok x, .ok y => decidable_of_iff (x = y) (by simp)
  | .error x, .error y => decidable_of_iff (x = y) (by simp)
  | .ok _, .error _ => isFalse (by simp)
  | .error _, .ok _ => isFalse (by simp)

/-- The observable state of one dispatch promise: how many times the pool
has called its resolver or rejecter, and the first settlement value (later
settlement attempts are no-ops in JS, but are counted here). -/
structure Future where
  settleCalls : ℕ
  value : Option (Except PoolError ChunkResult)
deriving DecidableEq

/-- One resolver/rejecter call on a promise: records the attempt, keeps
the first value. -/
def settleFuture (f : Future) (out : Except PoolError ChunkResult) : Future :=
  { settleCalls := f.settleCalls + 1,
    value := match f.value with | none => some out | some w => some w }

/-- Pointwise map update, modelling `Map.set` / `Map.delete`. -/
def upd {α : Type} (f : ℕ → α) (k : ℕ) (v : α) : ℕ → α :=
  fun x => if x = k then v else f x

/-- The pool's mutable state after initialization. -/
structure PoolState where
  workers : List WorkerUnit
  jobQueue : List QueuedJob
  activeJobs : ℕ → Option ℕ
  workerState : ℕ → Option ℕ
  futures : ℕ → Future
  nextToken : ℕ
  assignLog : List (ℕ × ℕ)

/-- Mutation `worker.isBusy = b` of the worker object with id `wid`. -/
def setWorkerBusy (ws : List WorkerUnit) (wid : ℕ) (b : Bool) : List WorkerUnit :=
  ws.map fun w => if w.id = wid then { w with isBusy := b } else w

/-- Whether the worker object with id `wid` currently has `isBusy` set. -/
def workerIsBusy (s : PoolState) (wid : ℕ) : Bool :=
  s.workers.any fun w => w.id == wid && w.isBusy

/-- Embedding of `_assignJob`: mark the worker busy, record the pending
job under its chunk index, record the worker→chunk mapping, and post the
process message (recorded in `assignLog`). -/
def assignJob (s : PoolState) (wid : ℕ) (j : QueuedJob) : PoolState :=
  { s with
    workers := setWorkerBusy s.workers wid true
    activeJobs := upd s.activeJobs j.chunkIndex (some j.token)
    workerState := upd s.workerState wid (some j.chunkIndex)
    assignLog := s.assignLog ++ [(wid, j.chunkIndex)] }

/-- Embedding of `dispatch`: create the job's promise (a fresh token),
then assign to the first idle worker if any, else append to the FIFO
queue. -/
def dispatch (s : PoolState) (chunkIndex : ℕ) : PoolState :=
  let t := s.nextToken
  let s1 := { s with nextToken := t + 1 }
  match s1.workers.find? (fun w => !w.isBusy) with
  | some w => assignJob s1 w.id ⟨chunkIndex, t⟩
  | none => { s1 with jobQueue := s1.jobQueue ++ [⟨chunkIndex, t⟩] }

/-- A post-initialization message from a worker, as destructured by
`_handleWorkerMessage` (`status`, `chunkIndex`, `processedData`, `message`,
`error`). -/
inductive PoolMsg where
  | progress (chunkIndex : ℕ) (message : String)
  | success (chunkIndex : ℕ) (processedData : List ℕ)
  | failure (chunkIndex : ℕ) (message : String)
deriving DecidableEq

/-- Tail of `_handleWorkerMessage` once a pending job was found for a
success/error message: settle the future, delete the pending record and
the worker→chunk mapping, clear the worker's busy flag, then shift the
queue and assign its head to this worker if non-empty. -/
def completeJob (s : PoolState) (wid : ℕ) (chunkIndex : ℕ) (t : ℕ)
    (out : Except PoolError ChunkResult) : PoolState :=
  let s1 := { s with
    futures := upd s.futures t (settleFuture (s.futures t) out)
    activeJobs := upd s.activeJobs chunkIndex none
    workerState := upd s.workerState wid none
    workers := setWorkerBusy s.workers wid false }
  match s1.jobQueue with
  | [] => s1
  | j :: rest => assignJob { s1 with jobQueue := rest } wid j

/-- Embedding of `_handleWorkerMessage`: look up the pending job by the
message's chunk index; return unchanged when none exists (`if (!job)
return`); forward progress without state change; otherwise complete the
job with the message's outcome. -/
def handleWorkerMessage (s : PoolState) (wid : ℕ) (m : PoolMsg) : PoolState :=
  match m with
  | .progress _ _ => s
  | .success c data =>
    match s.activeJobs c with
    | none => s
    | some t => completeJob s wid c t (.ok ⟨c, data⟩)
  | .failure c msg =>
    match s.activeJobs c with
    | none => s
    | some t => completeJob s wid c t (.error (.workerReported msg))

/-- Embedding of `_handleWorkerError` for a fatal uncaught worker error:
if the worker holds a chunk with a pending record, reject that future with
the crash error and delete the record.  Mirroring the source, the worker's
busy flag and `workerState` entry are left in place, no queued job is
assigned, and the `rejectPromise` branch is a no-op (the property is never
assigned). -/
def handleWorkerError (s : PoolState) (wid : ℕ) : PoolState :=
  match s.workerState wid with
  | none => s
  | some c =>
    match s.activeJobs c with
    | none => s
    | some t =>
      { s with
        futures := upd s.futures t (settleFuture (s.futures t) (.error (.crash wid c)))
        activeJobs := upd s.activeJobs c none }

/-- An event processed by the pool: a `dispatch` call from the
orchestrator, a message from worker `workerId`, or a fatal uncaught error
of worker `workerId`. -/
inductive PoolEvent where
  | dispatchEv (chunkIndex : ℕ)
  | msgEv (workerId : ℕ) (m : PoolMsg)
  | errorEv (workerId : ℕ)
deriving DecidableEq

/-- The pool's reaction to one event. -/
def poolStep (s : PoolState) (e : PoolEvent) : PoolState :=
  match e with
  | .dispatchEv c => dispatch s c
  | .msgEv wid m => handleWorkerMessage s wid m
  | .errorEv wid => handleWorkerError s wid

/-- The pool state right after a successful `initialize()` of `n` workers:
ids `0..n-1`, nobody busy, empty queue and maps, all futures pending. -/
def initPool (n : ℕ) : PoolState :=
  { workers := (List.range n).map fun i => ⟨i, false⟩
    jobQueue := []
    activeJobs := fun _ => none
    workerState := fun _ => none
    futures := fun _ => ⟨0, none⟩
    nextToken := 0
    assignLog := [] }

/-- Run the pool of `n` workers over a sequence of events. -/
def runPool (n : ℕ) (tr : List PoolEvent) : PoolState :=
  tr.foldl poolStep (initPool n)

/-- The chunk indices of the dispatch events of a trace, in order. -/
def dispatchIndices (tr : List PoolEvent) : List ℕ :=
  tr.filterMap fun e => match e with | .dispatchEv c => some c | _ => none

end PurgoVox

namespace PurgoVox

/-- Reading an updated map at the written key. -/
theorem upd_same {α : Type} (f : ℕ → α) (k : ℕ) (v : α) : upd f k v k = v := by
  simp [upd]

/-- Reading an updated map at a different key. -/
theorem upd_other {α : Type} (f : ℕ → α) {k x : ℕ} (v : α) (h : x ≠ k) :
    upd f k v x = f x := by
  simp [upd, h]

/-- The chunk index a success/error message refers to. -/
def msgChunk : PoolMsg → Option ℕ
  | .progress _ _ => none
  | .success c _ => some c
  | .failure c _ => some c

/-- After clearing a worker's busy flag, that worker is not busy. -/
theorem workerIsBusy_after_clear (ws : List WorkerUnit) (wid : ℕ) :
    ((setWorkerBusy ws wid false).any fun w => w.id == wid && w.isBusy) = false := by
  induction ws with
  | nil => rfl
  | cons a as ih =>
    simp only [setWorkerBusy, List.map_cons, List.any_cons] at ih ⊢
    by_cases h : a.id = wid
    · simp [h, ih]
    · simp [h, ih]

end PurgoVox

/-- Claim C4: a `dispatch` with an idle unit assigns the job to it at once
(queue untouched, assignment posted, pending record and worker mapping
created); with no idle unit the job is appended to the FIFO queue; and
when a unit reports completion of a pending job — success or failure — the
head of the queue, if any, is popped and immediately assigned to that
unit, while an empty queue leaves the unit idle with nothing assigned. -/
theorem C4_dispatch_and_fifo :
    (∀ (s : PoolState) (c : ℕ) (w : WorkerUnit),
        s.workers.find? (fun u => !u.isBusy) = some w →
        (dispatch s c).jobQueue = s.jobQueue
        ∧ (dispatch s c).assignLog = s.assignLog ++ [(w.id, c)]
        ∧ (dispatch s c).activeJobs c = some s.nextToken
        ∧ (dispatch s c).workerState w.id = some c)
    ∧ (∀ (s : PoolState) (c : ℕ),
        s.workers.find? (fun u => !u.isBusy) = none →
        dispatch s c =
          { s with jobQueue := s.jobQueue ++ [⟨c, s.nextToken⟩],
                   nextToken := s.nextToken + 1 })
    ∧ (∀ (s : PoolState) (wid : ℕ) (m : PoolMsg) (c t : ℕ) (j : QueuedJob)
          (rest : List QueuedJob),
        msgChunk m = some c → s.activeJobs c = some t → s.jobQueue = j :: rest →
        (handleWorkerMessage s wid m).jobQueue = rest
        ∧ (handleWorkerMessage s wid m).assignLog = s.assignLog ++ [(wid, j.chunkIndex)]
        ∧ (handleWorkerMessage s wid m).activeJobs j.chunkIndex = some j.token
        ∧ (handleWorkerMessage s wid m).workerState wid = some j.chunkIndex)
    ∧ (∀ (s : PoolState) (wid : ℕ) (m : PoolMsg) (c t : ℕ),
        msgChunk m = some c → s.activeJobs c = some t → s.jobQueue = [] →
        (handleWorkerMessage s wid m).jobQueue = []
        ∧ (handleWorkerMessage s wid m).assignLog = s.assignLog
        ∧ workerIsBusy (handleWorkerMessage s wid m) wid = false) := by
  refine ⟨?_, ?_, ?_, ?_⟩
  · intro s c w h
    simp only [dispatch, h]
    simp [assignJob, upd]
  · intro s c h
    simp only [dispatch, h]
  · intro s wid m c t j rest hm ha hq
    cases m with
    | progress c' msg => simp [msgChunk] at hm
    | success c' d =>
      simp only [msgChunk, Option.some.injEq] at hm
      subst hm
      simp only [handleWorkerMessage, ha, completeJob, hq]
      simp [assignJob, upd]
    | failure c' msg =>
      simp only [msgChunk, Option.some.injEq] at hm
      subst hm
      simp only [handleWorkerMessage, ha, completeJob, hq]
      simp [assignJob, upd]
  · intro s wid m c t hm ha hq
    cases m with
    | progress c' msg => simp [msgChunk] at hm
    | success c' d =>
      simp only [msgChunk, Option.some.injEq] at hm
      subst hm
      simp only [handleWorkerMessage, ha, completeJob, hq]
      refine ⟨trivial, trivial, ?_⟩
      simpa [workerIsBusy] using workerIsBusy_after_clear s.workers wid
    | failure c' msg =>
      simp only [msgChunk, Option.some.injEq] at hm
      subst hm
      simp only [handleWorkerMessage, ha, completeJob, hq]
      refine ⟨trivial, trivial, ?_⟩
      simpa [workerIsBusy] using workerIsBusy_after_clear s.workers wid

/-- Witness for `C4_dispatch_and_fifo`: a fresh 2-worker pool assigns a
dispatched job to idle worker 0 without queueing; and in a 1-worker pool
with chunk 0 in flight and chunk 1 queued, worker 0's success report pops
the queued job and assigns it to worker 0. -/
theorem C4_dispatch_and_fifo_witness :
    ((dispatch (runPool 2 []) 5).jobQueue = (runPool 2 []).jobQueue
     ∧ (dispatch (runPool 2 []) 5).assignLog = (runPool 2 []).assignLog ++ [(0, 5)]
     ∧ (dispatch (runPool 2 []) 5).activeJobs 5 = some (runPool 2 []).nextToken
     ∧ (dispatch (runPool 2 []) 5).workerState 0 = some 5)
    ∧ ((handleWorkerMessage (runPool 1 [.dispatchEv 0, .dispatchEv 1]) 0
          (.success 0 [7])).jobQueue = []
       ∧ (handleWorkerMessage (runPool 1 [.dispatchEv 0, .dispatchEv 1]) 0
            (.success 0 [7])).assignLog =
          (runPool 1 [.dispatchEv 0, .dispatchEv 1]).assignLog ++ [(0, 1)]
       ∧ (handleWorkerMessage (runPool 1 [.dispatchEv 0, .dispatchEv 1]) 0
            (.success 0 [7])).activeJobs 1 = some 1
       ∧ (handleWorkerMessage (runPool 1 [.dispatchEv 0, .dispatchEv 1]) 0
            (.success 0 [7])).workerState 0 = some 1) :=
  ⟨C4_dispatch_and_fifo.1 (runPool 2 []) 5 ⟨0, false⟩ (by decide),
   C4_dispatch_and_fifo.2.2.1 (runPool 1 [.dispatchEv 0, .dispatchEv 1]) 0
     (.success 0 [7]) 0 0 ⟨1, 1⟩ [] (by decide) (by decide) (by decide)⟩

/-- Claim C5, counterexample to the crash-policy conjunct, at the concrete
input: a 1-worker pool with chunk 0 in flight on worker 0 and chunk 1
queued, when worker 0 crashes fatally.  The pool follows neither declared
policy: it is not terminated (the worker array is untouched and non-empty),
the crashed unit is not replaced (the same unit is still there, still
flagged busy, its chunk mapping intact) and the queue is not served (job
⟨1, 1⟩ stays queued and no assignment beyond the original one is made). -/
theorem C5_no_crash_policy_counterexample :
    (handleWorkerError (runPool 1 [.dispatchEv 0, .dispatchEv 1]) 0).workers = [⟨0, true⟩]
    ∧ (handleWorkerError (runPool 1 [.dispatchEv 0, .dispatchEv 1]) 0).jobQueue = [⟨1, 1⟩]
    ∧ (handleWorkerError (runPool 1 [.dispatchEv 0, .dispatchEv 1]) 0).assignLog = [(0, 0)]
    ∧ (handleWorkerError (runPool 1 [.dispatchEv 0, .dispatchEv 1]) 0).workerState 0
        = some 0 := by
  decide

/-- Claim C5 (amended): when a unit crashes while holding a job, the pool
rejects exactly that job's future with a crash error identifying the unit
id and chunk index, and removes its pending record; every other future and
every other pending record is untouched, as are the worker array, the FIFO
queue, the worker→chunk map and the assignment log — the pool neither
terminates nor replaces the crashed unit, it simply abandons it. -/
theorem C5_crash_rejects_only_that_job
    (s : PoolState) (wid c t : ℕ)
    (hws : s.workerState wid = some c)
    (ha : s.activeJobs c = some t)
    (hf : s.futures t = ⟨0, none⟩) :
    (handleWorkerError s wid).futures t = ⟨1, some (.error (.crash wid c))⟩
    ∧ (∀ t2, t2 ≠ t → (handleWorkerError s wid).futures t2 = s.futures t2)
    ∧ (handleWorkerError s wid).activeJobs c = none
    ∧ (∀ c2, c2 ≠ c → (handleWorkerError s wid).activeJobs c2 = s.activeJobs c2)
    ∧ (handleWorkerError s wid).workers = s.workers
    ∧ (handleWorkerError s wid).jobQueue = s.jobQueue
    ∧ (handleWorkerError s wid).workerState = s.workerState
    ∧ (handleWorkerError s wid).assignLog = s.assignLog := by
  simp only [handleWorkerError, hws, ha]
  refine ⟨?_, ?_, ?_, ?_, trivial, trivial, trivial, trivial⟩
  · simp [upd, settleFuture, hf]
  · intro t2 h2
    simp [upd, h2]
  · simp [upd]
  · intro c2 h2
    simp [upd, h2]

/-- Witness for `C5_crash_rejects_only_that_job` at the concrete 1-worker
pool with chunk 0 in flight and chunk 1 queued. -/
theorem C5_crash_rejects_only_that_job_witness :
    (handleWorkerError (runPool 1 [.dispatchEv 0, .dispatchEv 1]) 0).futures 0
        = ⟨1, some (.error (.crash 0 0))⟩
    ∧ (handleWorkerError (runPool 1 [.dispatchEv 0, .dispatchEv 1]) 0).futures 1
        = (runPool 1 [.dispatchEv 0, .dispatchEv 1]).futures 1 :=
  ⟨(C5_crash_rejects_only_that_job (runPool 1 [.dispatchEv 0, .dispatchEv 1]) 0 0 0
      (by decide) (by decide) (by decide)).1,
   (C5_crash_rejects_only_that_job (runPool 1 [.dispatchEv 0, .dispatchEv 1]) 0 0 0
      (by decide) (by decide) (by decide)).2.1 1 (by decide)⟩

namespace PurgoVox

/-- Setting a busy flag does not change the worker ids. -/
theorem setWorkerBusy_map_id (ws : List WorkerUnit) (wid : ℕ) (b : Bool) :
    (setWorkerBusy ws wid b).map (fun w => w.id) = ws.map (fun w => w.id) := by
  induction ws with
  | nil => rfl
  | cons a as ih =>
    simp only [setWorkerBusy, List.map_cons] at ih ⊢
    by_cases h : a.id = wid
    · simp [h, ih]
    · simp [h, ih]

/-- Setting the busy flag of a different worker id does not change whether
worker `wid` is busy. -/
theorem any_busy_setWorkerBusy_other (ws : List WorkerUnit) {wid wid2 : ℕ} (b : Bool)
    (h : wid2 ≠ wid) :
    ((setWorkerBusy ws wid2 b).any fun w => w.id == wid && w.isBusy)
      = (ws.any fun w => w.id == wid && w.isBusy) := by
  induction ws with
  | nil => rfl
  | cons a as ih =>
    simp only [setWorkerBusy, List.map_cons, List.any_cons] at ih ⊢
    by_cases h2 : a.id = wid2
    · have hf : (wid2 == wid) = false := by
        simp only [beq_eq_false_iff_ne, ne_eq]
        exact h
      simp [h2, hf, ih]
    · simp [h2, ih]

/-- Completion handling by a different worker id preserves worker `wid`'s
busy flag, adds no assignment for `wid`, and keeps the ids unchanged. -/
theorem completeJob_preserves_busy (s : PoolState) {wid wid2 : ℕ} (c t : ℕ)
    (out : Except PoolError ChunkResult)
    (hnd : (s.workers.map fun w => w.id).Nodup)
    (hb : workerIsBusy s wid = true)
    (hw2 : wid2 ≠ wid) :
    workerIsBusy (completeJob s wid2 c t out) wid = true
    ∧ (∀ p ∈ (completeJob s wid2 c t out).assignLog, p.1 = wid → p ∈ s.assignLog)
    ∧ ((completeJob s wid2 c t out).workers.map fun w => w.id).Nodup := by
  simp only [completeJob]
  cases hq : s.jobQueue with
  | nil =>
    refine ⟨?_, fun p hp _ => hp, ?_⟩
    · show ((setWorkerBusy s.workers wid2 false).any fun u => u.id == wid && u.isBusy) = true
      rw [any_busy_setWorkerBusy_other s.workers false hw2]
      exact hb
    · show ((setWorkerBusy s.workers wid2 false).map fun w => w.id).Nodup
      rw [setWorkerBusy_map_id]
      exact hnd
  | cons j rest =>
    simp only [assignJob]
    refine ⟨?_, ?_, ?_⟩
    · show ((setWorkerBusy (setWorkerBusy s.workers wid2 false) wid2 true).any
        fun u => u.id == wid && u.isBusy) = true
      rw [any_busy_setWorkerBusy_other _ true hw2, any_busy_setWorkerBusy_other _ false hw2]
      exact hb
    · intro p hp hpw
      rcases List.mem_append.mp hp with h1 | h1
      · exact h1
      · exfalso
        simp only [List.mem_singleton] at h1
        rw [h1] at hpw
        exact hw2 hpw
    · show ((setWorkerBusy (setWorkerBusy s.workers wid2 false) wid2 true).map
        fun w => w.id).Nodup
      rw [setWorkerBusy_map_id, setWorkerBusy_map_id]
      exact hnd

/-- One pool event that is not a message from worker `wid` preserves
`wid`'s busy flag, adds no assignment targeting `wid`, and keeps the
worker ids duplicate-free. -/
theorem step_preserves_busy (s : PoolState) (wid : ℕ) (e : PoolEvent)
    (hnd : (s.workers.map fun w => w.id).Nodup)
    (hb : workerIsBusy s wid = true)
    (hne : ∀ m, e ≠ PoolEvent.msgEv wid m) :
    workerIsBusy (poolStep s e) wid = true
    ∧ (∀ p ∈ (poolStep s e).assignLog, p.1 = wid → p ∈ s.assignLog)
    ∧ ((poolStep s e).workers.map fun w => w.id).Nodup := by
  cases e with
  | dispatchEv c =>
    simp only [poolStep, dispatch]
    cases hfind : s.workers.find? (fun w => !w.isBusy) with
    | none =>
      simp only [hfind]
      exact ⟨hb, fun p hp _ => hp, hnd⟩
    | some w =>
      have hwmem := List.mem_of_find?_eq_some hfind
      have hwnb := List.find?_some hfind
      have hwid : w.id ≠ wid := by
        intro heq
        rcases List.any_eq_true.mp hb with ⟨w2, hw2mem, hw2⟩
        simp only [Bool.and_eq_true, beq_iff_eq] at hw2
        obtain ⟨hid2', hbusy2⟩ := hw2
        have : w = w2 :=
          List.inj_on_of_nodup_map hnd hwmem hw2mem (by rw [heq, hid2'])
        rw [this, hbusy2] at hwnb
        simp at hwnb
      simp only [hfind, assignJob]
      refine ⟨?_, ?_, ?_⟩
      · show ((setWorkerBusy s.workers w.id true).any fun u => u.id == wid && u.isBusy) = true
        rw [any_busy_setWorkerBusy_other s.workers true hwid]
        exact hb
      · intro p hp hpw
        rcases List.mem_append.mp hp with h1 | h1
        · exact h1
        · exfalso
          simp only [List.mem_singleton] at h1
          rw [h1] at hpw
          exact hwid hpw
      · show ((setWorkerBusy s.workers w.id true).map fun u => u.id).Nodup
        rw [setWorkerBusy_map_id]
        exact hnd
  | msgEv wid2 m =>
    have hw2 : wid2 ≠ wid := by
      intro heq
      exact (hne m) (by rw [heq])
    cases m with
    | progress c msg => exact ⟨hb, fun p hp _ => hp, hnd⟩
    | success c d =>
      simp only [poolStep, handleWorkerMessage]
      cases hac : s.activeJobs c with
      | none =>
        simp only [hac]
        exact ⟨hb, fun p hp _ => hp, hnd⟩
      | some t =>
        simp only [hac]
        exact completeJob_preserves_busy s c t (.ok ⟨c, d⟩) hnd hb hw2
    | failure c msg =>
      simp only [poolStep, handleWorkerMessage]
      cases hac : s.activeJobs c with
      | none =>
        simp only [hac]
        exact ⟨hb, fun p hp _ => hp, hnd⟩
      | some t =>
        simp only [hac]
        exact completeJob_preserves_busy s c t (.error (.workerReported msg)) hnd hb hw2
  | errorEv wid2 =>
    simp only [poolStep, handleWorkerError]
    cases hws2 : s.workerState wid2 with
    | none => exact ⟨hb, fun p hp _ => hp, hnd⟩
    | some c =>
      cases hac : s.activeJobs c with
      | none =>
        simp only [hws2, hac]
        exact ⟨hb, fun p hp _ => hp, hnd⟩
      | some t =>
        simp only [hws2, hac]
        exact ⟨hb, fun p hp _ => hp, hnd⟩

/-- Along any event suffix containing no message from worker `wid`, a busy
worker `wid` stays busy and acquires no new assignment. -/
theorem trace_preserves_busy (wid : ℕ) (tr : List PoolEvent) :
    ∀ (s : PoolState),
    (s.workers.map fun w => w.id).Nodup →
    workerIsBusy s wid = true →
    (∀ m, PoolEvent.msgEv wid m ∉ tr) →
    workerIsBusy (tr.foldl poolStep s) wid = true
    ∧ (∀ p ∈ (tr.foldl poolStep s).assignLog, p.1 = wid → p ∈ s.assignLog) := by
  induction tr with
  | nil => exact fun s _ hb _ => ⟨hb, fun p hp _ => hp⟩
  | cons e rest ih =>
    intro s hnd hb hne
    have hnee : ∀ m, e ≠ PoolEvent.msgEv wid m := by
      intro m heq
      exact (hne m) (by rw [← heq]; exact List.mem_cons_self e rest)
    obtain ⟨hb2, hlog2, hnd2⟩ := step_preserves_busy s wid e hnd hb hnee
    have hnerest : ∀ m, PoolEvent.msgEv wid m ∉ rest := by
      intro m hmem
      exact (hne m) (List.mem_cons_of_mem e hmem)
    obtain ⟨hb3, hlog3⟩ := ih (poolStep s e) hnd2 hb2 hnerest
    exact ⟨hb3, fun p hp hpw => hlog2 p (hlog3 p hp hpw) hpw⟩

end PurgoVox

/-- Claim C9: after `_handleWorkerError` fires for a unit holding a job,
that unit's busy flag remains set and its unit→chunk mapping entry
remains; the worker array is untouched (the pool is neither terminated nor
is the unit replaced) and the queue is untouched; and along any subsequent
events in which the crashed unit (being dead) sends no message, it stays
busy and is never the target of any new assignment — neither a queued job
nor a fresh dispatch. -/
theorem C9_crashed_unit_abandoned
    (s : PoolState) (wid c : ℕ)
    (hnd : (s.workers.map fun w => w.id).Nodup)
    (hws : s.workerState wid = some c)
    (hb : workerIsBusy s wid = true) :
    workerIsBusy (handleWorkerError s wid) wid = true
    ∧ (handleWorkerError s wid).workerState wid = some c
    ∧ (handleWorkerError s wid).workers = s.workers
    ∧ (handleWorkerError s wid).jobQueue = s.jobQueue
    ∧ ∀ (tr : List PoolEvent), (∀ m, PoolEvent.msgEv wid m ∉ tr) →
        workerIsBusy (tr.foldl poolStep (handleWorkerError s wid)) wid = true
        ∧ (∀ p ∈ (tr.foldl poolStep (handleWorkerError s wid)).assignLog,
            p.1 = wid → p ∈ (handleWorkerError s wid).assignLog) := by
  have hsame : workerIsBusy (handleWorkerError s wid) wid = true
      ∧ (handleWorkerError s wid).workerState wid = some c
      ∧ (handleWorkerError s wid).workers = s.workers
      ∧ (handleWorkerError s wid).jobQueue = s.jobQueue := by
    simp only [handleWorkerError, hws]
    cases hac : s.activeJobs c with
    | none => exact ⟨hb, hws, rfl, rfl⟩
    | some t => exact ⟨hb, hws, rfl, rfl⟩
  refine ⟨hsame.1, hsame.2.1, hsame.2.2.1, hsame.2.2.2, ?_⟩
  intro tr hne
  exact trace_preserves_busy wid tr (handleWorkerError s wid)
    (by rw [hsame.2.2.1]; exact hnd) hsame.1 hne

/-- Witness for `C9_crashed_unit_abandoned`: the 1-worker pool with chunk 0
in flight and chunk 1 queued; after worker 0 crashes, a further dispatch of
chunk 2 leaves worker 0 busy and assigns it nothing. -/
theorem C9_crashed_unit_abandoned_witness :
    workerIsBusy (handleWorkerError (runPool 1 [.dispatchEv 0, .dispatchEv 1]) 0) 0 = true
    ∧ workerIsBusy
        ([PoolEvent.dispatchEv 2].foldl poolStep
          (handleWorkerError (runPool 1 [.dispatchEv 0, .dispatchEv 1]) 0)) 0 = true :=
  ⟨(C9_crashed_unit_abandoned (runPool 1 [.dispatchEv 0, .dispatchEv 1]) 0 0
      (by decide) (by decide) (by decide)).1,
   ((C9_crashed_unit_abandoned (runPool 1 [.dispatchEv 0, .dispatchEv 1]) 0 0
      (by decide) (by decide) (by decide)).2.2.2.2 [PoolEvent.dispatchEv 2]
      (by intro m h; simp at h)).1⟩

namespace PurgoVox

/-- Token `t` is pending: the job whose promise it identifies sits either
in the FIFO queue or in the `activeJobs` map. -/
def tokenPending (s : PoolState) (t : ℕ) : Prop :=
  (∃ j ∈ s.jobQueue, j.token = t) ∨ (∃ c, s.activeJobs c = some t)

/-- The scheduler invariant, relative to the list `dispatched` of chunk
indices dispatched so far: every future is settled at most once, a
dispatched job's pending record exists exactly while its future is
unsettled, tokens appear in at most one place, and chunk indexes present
in the pool were dispatched. -/
structure PoolInv (dispatched : List ℕ) (s : PoolState) : Prop where
  calls_le_one : ∀ t, (s.futures t).settleCalls ≤ 1
  fresh_future : ∀ t, s.nextToken ≤ t → s.futures t = ⟨0, none⟩
  fresh_not_pending : ∀ t, s.nextToken ≤ t → ¬ tokenPending s t
  pending_unsettled : ∀ t, tokenPending s t → (s.futures t).settleCalls = 0
  unsettled_pending : ∀ t, t < s.nextToken → (s.futures t).settleCalls = 0 → tokenPending s t
  queue_tokens_nodup : (s.jobQueue.map QueuedJob.token).Nodup
  active_inj : ∀ c1 c2 t, s.activeJobs c1 = some t → s.activeJobs c2 = some t → c1 = c2
  queue_active_disjoint : ∀ j ∈ s.jobQueue, ∀ c, s.activeJobs c ≠ some j.token
  queue_chunk_inactive : ∀ j ∈ s.jobQueue, s.activeJobs j.chunkIndex = none
  queue_chunks_nodup : (s.jobQueue.map QueuedJob.chunkIndex).Nodup
  chunk_dispatched : ∀ c, (s.activeJobs c).isSome → c ∈ dispatched
  queue_chunk_dispatched : ∀ j ∈ s.jobQueue, j.chunkIndex ∈ dispatched

/-- A pending token is below the allocation counter. -/
theorem PoolInv.pending_lt {D : List ℕ} {s : PoolState} (hInv : PoolInv D s) {t : ℕ}
    (hp : tokenPending s t) : t < s.nextToken := by
  by_contra h
  exact hInv.fresh_not_pending t (le_of_not_lt h) hp

/-- Dispatching a fresh chunk index preserves the invariant. -/
theorem poolInv_dispatch {D : List ℕ} {s : PoolState} (hInv : PoolInv D s) {c : ℕ}
    (hc : c ∉ D) : PoolInv (D ++ [c]) (dispatch s c) := by
  have hActiveC : s.activeJobs c = none := by
    cases hac : s.activeJobs c with
    | none => rfl
    | some t =>
      exact absurd (hInv.chunk_dispatched c (by rw [hac]; rfl)) hc
  have hQueueC : ∀ j ∈ s.jobQueue, j.chunkIndex ≠ c := by
    intro j hj heq
    exact hc (heq ▸ hInv.queue_chunk_dispatched j hj)
  simp only [dispatch]
  cases hfind : s.workers.find? (fun w => !w.isBusy) with
  | none =>
    simp only [hfind]
    constructor <;> dsimp only [tokenPending]
    · exact hInv.calls_le_one
    · intro t ht
      exact hInv.fresh_future t (by omega)
    · intro t ht hp
      rcases hp with ⟨j, hj, hjt⟩ | ⟨cc, hcc⟩
      · rcases List.mem_append.mp hj with h1 | h1
        · exact hInv.fresh_not_pending t (by omega) (Or.inl ⟨j, h1, hjt⟩)
        · simp only [List.mem_singleton] at h1
          rw [h1] at hjt
          simp at hjt
          omega
      · exact hInv.fresh_not_pending t (by omega) (Or.inr ⟨cc, hcc⟩)
    · intro t hp
      rcases hp with ⟨j, hj, hjt⟩ | ⟨cc, hcc⟩
      · rcases List.mem_append.mp hj with h1 | h1
        · exact hInv.pending_unsettled t (Or.inl ⟨j, h1, hjt⟩)
        · simp only [List.mem_singleton] at h1
          rw [h1] at hjt
          simp at hjt
          rw [← hjt, hInv.fresh_future s.nextToken (le_refl _)]
      · exact hInv.pending_unsettled t (Or.inr ⟨cc, hcc⟩)
    · intro t ht hcalls
      by_cases heq : t = s.nextToken
      · exact Or.inl ⟨⟨c, s.nextToken⟩, List.mem_append.mpr (Or.inr (by simp)), heq.symm⟩
      · have := hInv.unsettled_pending t (by omega) hcalls
        rcases this with ⟨j, hj, hjt⟩ | ⟨cc, hcc⟩
        · exact Or.inl ⟨j, List.mem_append.mpr (Or.inl hj), hjt⟩
        · exact Or.inr ⟨cc, hcc⟩
    · rw [List.map_append]
      simp only [List.map_cons, List.map_nil]
      rw [List.nodup_append]
      refine ⟨hInv.queue_tokens_nodup, List.nodup_singleton _, ?_⟩
      intro t htmem htmem2
      simp only [List.mem_singleton] at htmem2
      rcases List.mem_map.mp htmem with ⟨j, hj, hjt⟩
      exact hInv.fresh_not_pending s.nextToken (le_refl _)
        (Or.inl ⟨j, hj, by rw [hjt, htmem2]⟩)
    · exact hInv.active_inj
    · intro j hj cc
      rcases List.mem_append.mp hj with h1 | h1
      · exact hInv.queue_active_disjoint j h1 cc
      · simp only [List.mem_singleton] at h1
        rw [h1]
        intro hcc
        exact hInv.fresh_not_pending s.nextToken (le_refl _) (Or.inr ⟨cc, hcc⟩)
    · intro j hj
      rcases List.mem_append.mp hj with h1 | h1
      · exact hInv.queue_chunk_inactive j h1
      · simp only [List.mem_singleton] at h1
        rw [h1]
        exact hActiveC
    · rw [List.map_append]
      simp only [List.map_cons, List.map_nil]
      rw [List.nodup_append]
      refine ⟨hInv.queue_chunks_nodup, List.nodup_singleton _, ?_⟩
      intro x hxmem hxmem2
      simp only [List.mem_singleton] at hxmem2
      rcases List.mem_map.mp hxmem with ⟨j, hj, hjx⟩
      exact hQueueC j hj (by rw [hjx, hxmem2])
    · intro cc hcc
      exact List.mem_append.mpr (Or.inl (hInv.chunk_dispatched cc hcc))
    · intro j hj
      rcases List.mem_append.mp hj with h1 | h1
      · exact List.mem_append.mpr (Or.inl (hInv.queue_chunk_dispatched j h1))
      · simp only [List.mem_singleton] at h1
        rw [h1]
        exact List.mem_append.mpr (Or.inr (by simp))
  | some w =>
    simp only [hfind, assignJob]
    constructor <;> dsimp only [tokenPending]
    · exact hInv.calls_le_one
    · intro t ht
      exact hInv.fresh_future t (by omega)
    · intro t ht hp
      rcases hp with ⟨j, hj, hjt⟩ | ⟨cc, hcc⟩
      · exact hInv.fresh_not_pending t (by omega) (Or.inl ⟨j, hj, hjt⟩)
      · by_cases hcceq : cc = c
        · rw [hcceq, upd_same] at hcc
          simp at hcc
          omega
        · rw [upd_other _ _ hcceq] at hcc
          exact hInv.fresh_not_pending t (by omega) (Or.inr ⟨cc, hcc⟩)
    · intro t hp
      rcases hp with ⟨j, hj, hjt⟩ | ⟨cc, hcc⟩
      · exact hInv.pending_unsettled t (Or.inl ⟨j, hj, hjt⟩)
      · by_cases hcceq : cc = c
        · rw [hcceq, upd_same] at hcc
          simp at hcc
          rw [← hcc, hInv.fresh_future s.nextToken (le_refl _)]
        · rw [upd_other _ _ hcceq] at hcc
          exact hInv.pending_unsettled t (Or.inr ⟨cc, hcc⟩)
    · intro t ht hcalls
      by_cases heq : t = s.nextToken
      · exact Or.inr ⟨c, by rw [upd_same, heq]⟩
      · have := hInv.unsettled_pending t (by omega) hcalls
        rcases this with ⟨j, hj, hjt⟩ | ⟨cc, hcc⟩
        · exact Or.inl ⟨j, hj, hjt⟩
        · have hcceq : cc ≠ c := by
            intro hcceq
            rw [hcceq, hActiveC] at hcc
            exact absurd hcc (by simp)
          exact Or.inr ⟨cc, by rw [upd_other _ _ hcceq]; exact hcc⟩
    · exact hInv.queue_tokens_nodup
    · intro c1 c2 t h1 h2
      by_cases hc1 : c1 = c <;> by_cases hc2 : c2 = c
      · rw [hc1, hc2]
      · rw [hc1, upd_same] at h1
        rw [upd_other _ _ hc2] at h2
        simp only [Option.some.injEq] at h1
        exact absurd ((Or.inr ⟨c2, by rw [h1]; exact h2⟩ : tokenPending s s.nextToken))
          (hInv.fresh_not_pending s.nextToken (le_refl _))
      · rw [hc2, upd_same] at h2
        rw [upd_other _ _ hc1] at h1
        simp only [Option.some.injEq] at h2
        exact absurd ((Or.inr ⟨c1, by rw [h2]; exact h1⟩ : tokenPending s s.nextToken))
          (hInv.fresh_not_pending s.nextToken (le_refl _))
      · rw [upd_other _ _ hc1] at h1
        rw [upd_other _ _ hc2] at h2
        exact hInv.active_inj c1 c2 t h1 h2
    · intro j hj cc
      by_cases hcceq : cc = c
      · rw [hcceq, upd_same]
        intro hcc
        simp only [Option.some.injEq] at hcc
        exact hInv.fresh_not_pending s.nextToken (le_refl _)
          (Or.inl ⟨j, hj, hcc.symm⟩)
      · rw [upd_other _ _ hcceq]
        exact hInv.queue_active_disjoint j hj cc
    · intro j hj
      have := hQueueC j hj
      rw [upd_other _ _ this]
      exact hInv.queue_chunk_inactive j hj
    · exact hInv.queue_chunks_nodup
    · intro cc hcc
      by_cases hcceq : cc = c
      · exact List.mem_append.mpr (Or.inr (by rw [hcceq]; simp))
      · rw [upd_other _ _ hcceq] at hcc
        exact List.mem_append.mpr (Or.inl (hInv.chunk_dispatched cc hcc))
    · intro j hj
      exact List.mem_append.mpr (Or.inl (hInv.queue_chunk_dispatched j hj))

end PurgoVox

namespace PurgoVox

/-- Completion handling of a pending job preserves the scheduler
invariant: the settled token leaves the pending set with exactly one
settlement call, and a popped queue head moves intact into `activeJobs`. -/
theorem poolInv_completeJob {D : List ℕ} {s : PoolState} (hInv : PoolInv D s)
    {c t : ℕ} (hac : s.activeJobs c = some t) (wid : ℕ)
    (out : Except PoolError ChunkResult) :
    PoolInv D (completeJob s wid c t out) := by
  have ht_pending : tokenPending s t := Or.inr ⟨c, hac⟩
  have ht_lt : t < s.nextToken := hInv.pending_lt ht_pending
  have ht_calls : (s.futures t).settleCalls = 0 := hInv.pending_unsettled t ht_pending
  have ht_notqueue : ∀ j ∈ s.jobQueue, j.token ≠ t := by
    intro j hj heq
    exact hInv.queue_active_disjoint j hj c (by rw [hac, heq])
  have ht_active_unique : ∀ cc, s.activeJobs cc = some t → cc = c := by
    intro cc hcc
    exact hInv.active_inj cc c t hcc hac
  cases hq : s.jobQueue with
  | nil =>
    simp only [completeJob, hq]
    constructor <;> dsimp only [tokenPending]
    · intro t2
      by_cases h2 : t2 = t
      · rw [h2, upd_same]
        simp [settleFuture, ht_calls]
      · rw [upd_other _ _ h2]
        exact hInv.calls_le_one t2
    · intro t2 h2
      have : t2 ≠ t := by omega
      rw [upd_other _ _ this]
      exact hInv.fresh_future t2 h2
    · intro t2 h2 hp
      rcases hp with ⟨j, hj, hjt⟩ | ⟨cc, hcc⟩
      · exact absurd hj (List.not_mem_nil j)
      · by_cases hcceq : cc = c
        · rw [hcceq, upd_same] at hcc
          exact absurd hcc (by simp)
        · rw [upd_other _ _ hcceq] at hcc
          exact hInv.fresh_not_pending t2 h2 (Or.inr ⟨cc, hcc⟩)
    · intro t2 hp
      rcases hp with ⟨j, hj, hjt⟩ | ⟨cc, hcc⟩
      · exact absurd hj (List.not_mem_nil j)
      · by_cases hcceq : cc = c
        · rw [hcceq, upd_same] at hcc
          exact absurd hcc (by simp)
        · rw [upd_other _ _ hcceq] at hcc
          have ht2 : t2 ≠ t := by
            intro heq
            exact hcceq (ht_active_unique cc (by rw [hcc, heq]))
          rw [upd_other _ _ ht2]
          exact hInv.pending_unsettled t2 (Or.inr ⟨cc, hcc⟩)
    · intro t2 h2 hcalls
      have ht2 : t2 ≠ t := by
        intro heq
        rw [heq, upd_same] at hcalls
        simp [settleFuture] at hcalls
      rw [upd_other _ _ ht2] at hcalls
      have := hInv.unsettled_pending t2 h2 hcalls
      rcases this with ⟨j, hj, hjt⟩ | ⟨cc, hcc⟩
      · rw [hq] at hj
        exact absurd hj (List.not_mem_nil j)
      · have hcceq : cc ≠ c := by
          intro heq
          rw [heq, hac] at hcc
          simp only [Option.some.injEq] at hcc
          exact ht2 hcc.symm
        exact Or.inr ⟨cc, by rw [upd_other _ _ hcceq]; exact hcc⟩
    · simp
    · intro c1 c2 t2 h1 h2
      by_cases hc1 : c1 = c <;> by_cases hc2 : c2 = c
      · rw [hc1, hc2]
      · rw [hc1, upd_same] at h1
        exact absurd h1 (by simp)
      · rw [hc2, upd_same] at h2
        exact absurd h2 (by simp)
      · rw [upd_other _ _ hc1] at h1
        rw [upd_other _ _ hc2] at h2
        exact hInv.active_inj c1 c2 t2 h1 h2
    · intro j hj
      exact absurd hj (List.not_mem_nil j)
    · intro j hj
      exact absurd hj (List.not_mem_nil j)
    · simp
    · intro cc hcc
      by_cases hcceq : cc = c
      · rw [hcceq, upd_same] at hcc
        simp at hcc
      · rw [upd_other _ _ hcceq] at hcc
        exact hInv.chunk_dispatched cc hcc
    · intro j hj
      exact absurd hj (List.not_mem_nil j)
  | cons j rest =>
    have hj_mem : j ∈ s.jobQueue := by
      rw [hq]
      exact List.mem_cons_self j rest
    have hjt_ne : j.token ≠ t := ht_notqueue j hj_mem
    have hjc_ne : j.chunkIndex ≠ c := by
      intro heq
      have := hInv.queue_chunk_inactive j hj_mem
      rw [heq, hac] at this
      exact absurd this (by simp)
    have hj_pending : tokenPending s j.token := Or.inl ⟨j, hj_mem, rfl⟩
    have hj_calls : (s.futures j.token).settleCalls = 0 :=
      hInv.pending_unsettled j.token hj_pending
    have hj_lt : j.token < s.nextToken := hInv.pending_lt hj_pending
    have hrest_sub : ∀ j2 ∈ rest, j2 ∈ s.jobQueue := by
      intro j2 hj2
      rw [hq]
      exact List.mem_cons_of_mem j hj2
    have htokens : (s.jobQueue.map QueuedJob.token).Nodup := hInv.queue_tokens_nodup
    have hchunks : (s.jobQueue.map QueuedJob.chunkIndex).Nodup := hInv.queue_chunks_nodup
    have htokens2 : j.token ∉ rest.map QueuedJob.token := by
      rw [hq, List.map_cons] at htokens
      exact (List.nodup_cons.mp htokens).1
    have hchunks2 : j.chunkIndex ∉ rest.map QueuedJob.chunkIndex := by
      rw [hq, List.map_cons] at hchunks
      exact (List.nodup_cons.mp hchunks).1
    simp only [completeJob, hq, assignJob]
    constructor <;> dsimp only [tokenPending]
    · intro t2
      by_cases h2 : t2 = t
      · rw [h2, upd_same]
        simp [settleFuture, ht_calls]
      · rw [upd_other _ _ h2]
        exact hInv.calls_le_one t2
    · intro t2 h2
      have : t2 ≠ t := by omega
      rw [upd_other _ _ this]
      exact hInv.fresh_future t2 h2
    · intro t2 h2 hp
      rcases hp with ⟨j2, hj2, hjt2⟩ | ⟨cc, hcc⟩
      · exact hInv.fresh_not_pending t2 h2 (Or.inl ⟨j2, hrest_sub j2 hj2, hjt2⟩)
      · by_cases hccj : cc = j.chunkIndex
        · rw [hccj, upd_same] at hcc
          simp only [Option.some.injEq] at hcc
          exact hInv.fresh_not_pending t2 h2 (hcc ▸ hj_pending)
        · rw [upd_other _ _ hccj] at hcc
          by_cases hcceq : cc = c
          · rw [hcceq, upd_same] at hcc
            exact absurd hcc (by simp)
          · rw [upd_other _ _ hcceq] at hcc
            exact hInv.fresh_not_pending t2 h2 (Or.inr ⟨cc, hcc⟩)
    · intro t2 hp
      rcases hp with ⟨j2, hj2, hjt2⟩ | ⟨cc, hcc⟩
      · have ht2 : t2 ≠ t := by
          rw [← hjt2]
          exact ht_notqueue j2 (hrest_sub j2 hj2)
        rw [upd_other _ _ ht2]
        exact hInv.pending_unsettled t2 (Or.inl ⟨j2, hrest_sub j2 hj2, hjt2⟩)
      · by_cases hccj : cc = j.chunkIndex
        · rw [hccj, upd_same] at hcc
          simp only [Option.some.injEq] at hcc
          rw [← hcc]
          rw [upd_other _ _ hjt_ne]
          exact hj_calls
        · rw [upd_other _ _ hccj] at hcc
          by_cases hcceq : cc = c
          · rw [hcceq, upd_same] at hcc
            exact absurd hcc (by simp)
          · rw [upd_other _ _ hcceq] at hcc
            have ht2 : t2 ≠ t := by
              intro heq
              exact hcceq (ht_active_unique cc (by rw [hcc, heq]))
            rw [upd_other _ _ ht2]
            exact hInv.pending_unsettled t2 (Or.inr ⟨cc, hcc⟩)
    · intro t2 h2 hcalls
      have ht2 : t2 ≠ t := by
        intro heq
        rw [heq, upd_same] at hcalls
        simp [settleFuture] at hcalls
      rw [upd_other _ _ ht2] at hcalls
      have := hInv.unsettled_pending t2 h2 hcalls
      rcases this with ⟨j2, hj2, hjt2⟩ | ⟨cc, hcc⟩
      · rw [hq] at hj2
        rcases List.mem_cons.mp hj2 with h1 | h1
        · refine Or.inr ⟨j.chunkIndex, ?_⟩
          rw [upd_same, ← hjt2, h1]
        · exact Or.inl ⟨j2, h1, hjt2⟩
      · have hcceq : cc ≠ c := by
          intro heq
          rw [heq, hac] at hcc
          simp only [Option.some.injEq] at hcc
          exact ht2 hcc.symm
        have hccj : cc ≠ j.chunkIndex := by
          intro heq
          have := hInv.queue_chunk_inactive j hj_mem
          rw [← heq, hcc] at this
          exact absurd this (by simp)
        refine Or.inr ⟨cc, ?_⟩
        rw [upd_other _ _ hccj, upd_other _ _ hcceq]
        exact hcc
    · rw [hq, List.map_cons] at htokens
      exact (List.nodup_cons.mp htokens).2
    · intro c1 c2 t2 h1 h2
      by_cases hc1 : c1 = j.chunkIndex <;> by_cases hc2 : c2 = j.chunkIndex
      · rw [hc1, hc2]
      · rw [hc1, upd_same] at h1
        simp only [Option.some.injEq] at h1
        rw [upd_other _ _ hc2] at h2
        by_cases hc2c : c2 = c
        · rw [hc2c, upd_same] at h2
          exact absurd h2 (by simp)
        · rw [upd_other _ _ hc2c] at h2
          exact absurd h2 (by rw [← h1]; exact hInv.queue_active_disjoint j hj_mem c2)
      · rw [hc2, upd_same] at h2
        simp only [Option.some.injEq] at h2
        rw [upd_other _ _ hc1] at h1
        by_cases hc1c : c1 = c
        · rw [hc1c, upd_same] at h1
          exact absurd h1 (by simp)
        · rw [upd_other _ _ hc1c] at h1
          exact absurd h1 (by rw [← h2]; exact hInv.queue_active_disjoint j hj_mem c1)
      · rw [upd_other _ _ hc1] at h1
        rw [upd_other _ _ hc2] at h2
        by_cases hc1c : c1 = c
        · rw [hc1c, upd_same] at h1
          exact absurd h1 (by simp)
        · by_cases hc2c : c2 = c
          · rw [hc2c, upd_same] at h2
            exact absurd h2 (by simp)
          · rw [upd_other _ _ hc1c] at h1
            rw [upd_other _ _ hc2c] at h2
            exact hInv.active_inj c1 c2 t2 h1 h2
    · intro j2 hj2 cc
      by_cases hccj : cc = j.chunkIndex
      · rw [hccj, upd_same]
        intro hcc
        simp only [Option.some.injEq] at hcc
        exact htokens2 (List.mem_map.mpr ⟨j2, hj2, hcc.symm⟩)
      · rw [upd_other _ _ hccj]
        by_cases hcceq : cc = c
        · rw [hcceq, upd_same]
          simp
        · rw [upd_other _ _ hcceq]
          exact hInv.queue_active_disjoint j2 (hrest_sub j2 hj2) cc
    · intro j2 hj2
      have hccj : j2.chunkIndex ≠ j.chunkIndex := by
        intro heq
        exact hchunks2 (List.mem_map.mpr ⟨j2, hj2, heq⟩)
      rw [upd_other _ _ hccj]
      by_cases hcceq : j2.chunkIndex = c
      · rw [hcceq, upd_same]
      · rw [upd_other _ _ hcceq]
        exact hInv.queue_chunk_inactive j2 (hrest_sub j2 hj2)
    · rw [hq, List.map_cons] at hchunks
      exact (List.nodup_cons.mp hchunks).2
    · intro cc hcc
      by_cases hccj : cc = j.chunkIndex
      · rw [hccj]
        exact hInv.queue_chunk_dispatched j hj_mem
      · rw [upd_other _ _ hccj] at hcc
        by_cases hcceq : cc = c
        · rw [hcceq, upd_same] at hcc
          simp at hcc
        · rw [upd_other _ _ hcceq] at hcc
          exact hInv.chunk_dispatched cc hcc
    · intro j2 hj2
      exact hInv.queue_chunk_dispatched j2 (hrest_sub j2 hj2)

end PurgoVox

namespace PurgoVox

/-- Handling a worker message preserves the scheduler invariant. -/
theorem poolInv_msg {D : List ℕ} {s : PoolState} (hInv : PoolInv D s) (wid : ℕ)
    (m : PoolMsg) : PoolInv D (handleWorkerMessage s wid m) := by
  cases m with
  | progress c msg => exact hInv
  | success c d =>
    simp only [handleWorkerMessage]
    cases hac : s.activeJobs c with
    | none => exact hInv
    | some t => exact poolInv_completeJob hInv hac wid (.ok ⟨c, d⟩)
  | failure c msg =>
    simp only [handleWorkerMessage]
    cases hac : s.activeJobs c with
    | none => exact hInv
    | some t => exact poolInv_completeJob hInv hac wid (.error (.workerReported msg))

/-- Handling a fatal worker error preserves the scheduler invariant. -/
theorem poolInv_error {D : List ℕ} {s : PoolState} (hInv : PoolInv D s) (wid : ℕ) :
    PoolInv D (handleWorkerError s wid) := by
  simp only [handleWorkerError]
  cases hws : s.workerState wid with
  | none => exact hInv
  | some c =>
    dsimp only
    cases hac : s.activeJobs c with
    | none => exact hInv
    | some t =>
      dsimp only
      have ht_pending : tokenPending s t := Or.inr ⟨c, hac⟩
      have ht_lt : t < s.nextToken := hInv.pending_lt ht_pending
      have ht_calls : (s.futures t).settleCalls = 0 := hInv.pending_unsettled t ht_pending
      have ht_notqueue : ∀ j ∈ s.jobQueue, j.token ≠ t := by
        intro j hj heq
        exact hInv.queue_active_disjoint j hj c (by rw [hac, heq])
      have ht_active_unique : ∀ cc, s.activeJobs cc = some t → cc = c := by
        intro cc hcc
        exact hInv.active_inj cc c t hcc hac
      constructor <;> dsimp only [tokenPending]
      · intro t2
        by_cases h2 : t2 = t
        · rw [h2, upd_same]
          simp [settleFuture, ht_calls]
        · rw [upd_other _ _ h2]
          exact hInv.calls_le_one t2
      · intro t2 h2
        have : t2 ≠ t := by omega
        rw [upd_other _ _ this]
        exact hInv.fresh_future t2 h2
      · intro t2 h2 hp
        rcases hp with ⟨j2, hj2, hjt2⟩ | ⟨cc, hcc⟩
        · exact hInv.fresh_not_pending t2 h2 (Or.inl ⟨j2, hj2, hjt2⟩)
        · by_cases hcceq : cc = c
          · rw [hcceq, upd_same] at hcc
            exact absurd hcc (by simp)
          · rw [upd_other _ _ hcceq] at hcc
            exact hInv.fresh_not_pending t2 h2 (Or.inr ⟨cc, hcc⟩)
      · intro t2 hp
        rcases hp with ⟨j2, hj2, hjt2⟩ | ⟨cc, hcc⟩
        · have ht2 : t2 ≠ t := by
            rw [← hjt2]
            exact ht_notqueue j2 hj2
          rw [upd_other _ _ ht2]
          exact hInv.pending_unsettled t2 (Or.inl ⟨j2, hj2, hjt2⟩)
        · by_cases hcceq : cc = c
          · rw [hcceq, upd_same] at hcc
            exact absurd hcc (by simp)
          · rw [upd_other _ _ hcceq] at hcc
            have ht2 : t2 ≠ t := by
              intro heq
              exact hcceq (ht_active_unique cc (by rw [hcc, heq]))
            rw [upd_other _ _ ht2]
            exact hInv.pending_unsettled t2 (Or.inr ⟨cc, hcc⟩)
      · intro t2 h2 hcalls
        have ht2 : t2 ≠ t := by
          intro heq
          rw [heq, upd_same] at hcalls
          simp [settleFuture] at hcalls
        rw [upd_other _ _ ht2] at hcalls
        have := hInv.unsettled_pending t2 h2 hcalls
        rcases this with ⟨j2, hj2, hjt2⟩ | ⟨cc, hcc⟩
        · exact Or.inl ⟨j2, hj2, hjt2⟩
        · have hcceq : cc ≠ c := by
            intro heq
            rw [heq, hac] at hcc
            simp only [Option.some.injEq] at hcc
            exact ht2 hcc.symm
          exact Or.inr ⟨cc, by rw [upd_other _ _ hcceq]; exact hcc⟩
      · exact hInv.queue_tokens_nodup
      · intro c1 c2 t2 h1 h2
        by_cases hc1 : c1 = c <;> by_cases hc2 : c2 = c
        · rw [hc1, hc2]
        · rw [hc1, upd_same] at h1
          exact absurd h1 (by simp)
        · rw [hc2, upd_same] at h2
          exact absurd h2 (by simp)
        · rw [upd_other _ _ hc1] at h1
          rw [upd_other _ _ hc2] at h2
          exact hInv.active_inj c1 c2 t2 h1 h2
      · intro j2 hj2 cc
        by_cases hcceq : cc = c
        · rw [hcceq, upd_same]
          simp
        · rw [upd_other _ _ hcceq]
          exact hInv.queue_active_disjoint j2 hj2 cc
      · intro j2 hj2
        by_cases hcceq : j2.chunkIndex = c
        · rw [hcceq, upd_same]
        · rw [upd_other _ _ hcceq]
          exact hInv.queue_chunk_inactive j2 hj2
      · exact hInv.queue_chunks_nodup
      · intro cc hcc
        by_cases hcceq : cc = c
        · rw [hcceq, upd_same] at hcc
          simp at hcc
        · rw [upd_other _ _ hcceq] at hcc
          exact hInv.chunk_dispatched cc hcc
      · intro j2 hj2
        exact hInv.queue_chunk_dispatched j2 hj2

/-- The invariant holds of a freshly initialized pool. -/
theorem poolInv_init (n : ℕ) : PoolInv [] (initPool n) := by
  constructor <;> dsimp only [tokenPending, initPool]
  · intro t
    exact Nat.zero_le 1
  · intro t ht
    rfl
  · intro t ht hp
    rcases hp with ⟨j, hj, hjt⟩ | ⟨cc, hcc⟩
    · exact absurd hj (List.not_mem_nil j)
    · exact absurd hcc (by simp)
  · intro t hp
    rcases hp with ⟨j, hj, hjt⟩ | ⟨cc, hcc⟩
    · exact absurd hj (List.not_mem_nil j)
    · exact absurd hcc (by simp)
  · intro t ht
    omega
  · simp
  · intro c1 c2 t h1 h2
    exact absurd h1 (by simp)
  · intro j hj
    exact absurd hj (List.not_mem_nil j)
  · intro j hj
    exact absurd hj (List.not_mem_nil j)
  · simp
  · intro c hc
    simp at hc
  · intro j hj
    exact absurd hj (List.not_mem_nil j)

/-- Folding a trace whose dispatch indices are fresh and duplicate-free
preserves the invariant. -/
theorem poolInv_fold (tr : List PoolEvent) :
    ∀ (D : List ℕ) (s : PoolState),
    PoolInv D s →
    (∀ c ∈ dispatchIndices tr, c ∉ D) →
    (dispatchIndices tr).Nodup →
    PoolInv (D ++ dispatchIndices tr) (tr.foldl poolStep s) := by
  induction tr with
  | nil =>
    intro D s hInv _ _
    simpa [dispatchIndices] using hInv
  | cons e rest ih =>
    intro D s hInv hfresh hnd
    cases e with
    | dispatchEv c =>
      have hdi : dispatchIndices (PoolEvent.dispatchEv c :: rest)
          = c :: dispatchIndices rest := by
        simp [dispatchIndices]
      have hcD : c ∉ D := hfresh c (by rw [hdi]; exact List.mem_cons_self _ _)
      have hnd2 : (dispatchIndices rest).Nodup := by
        rw [hdi] at hnd
        exact (List.nodup_cons.mp hnd).2
      have hcrest : c ∉ dispatchIndices rest := by
        rw [hdi] at hnd
        exact (List.nodup_cons.mp hnd).1
      have hstep : PoolInv (D ++ [c]) (dispatch s c) := poolInv_dispatch hInv hcD
      have hfresh2 : ∀ c2 ∈ dispatchIndices rest, c2 ∉ D ++ [c] := by
        intro c2 hc2 hmem
        rcases List.mem_append.mp hmem with h1 | h1
        · exact hfresh c2 (by rw [hdi]; exact List.mem_cons_of_mem _ hc2) h1
        · simp only [List.mem_singleton] at h1
          exact hcrest (h1 ▸ hc2)
      have := ih (D ++ [c]) (dispatch s c) hstep hfresh2 hnd2
      rw [hdi]
      have hassoc : D ++ c :: dispatchIndices rest = (D ++ [c]) ++ dispatchIndices rest := by
        simp
      rw [hassoc]
      exact this
    | msgEv wid m =>
      have hdi : dispatchIndices (PoolEvent.msgEv wid m :: rest) = dispatchIndices rest := by
        simp [dispatchIndices]
      rw [hdi] at hfresh hnd ⊢
      exact ih D (handleWorkerMessage s wid m) (poolInv_msg hInv wid m) hfresh hnd
    | errorEv wid =>
      have hdi : dispatchIndices (PoolEvent.errorEv wid :: rest) = dispatchIndices rest := by
        simp [dispatchIndices]
      rw [hdi] at hfresh hnd ⊢
      exact ih D (handleWorkerError s wid) (poolInv_error hInv wid) hfresh hnd

/-- The invariant holds at the end of any run whose dispatched chunk
indices are pairwise distinct. -/
theorem poolInv_run (n : ℕ) (tr : List PoolEvent)
    (hnd : (dispatchIndices tr).Nodup) :
    PoolInv (dispatchIndices tr) (runPool n tr) := by
  have := poolInv_fold tr [] (initPool n) (poolInv_init n)
    (fun c _ hc => absurd hc (List.not_mem_nil c)) hnd
  simpa [runPool] using this

end PurgoVox

/-- Claim C6: after any event sequence whose dispatched chunk indices are
distinct (the orchestrator dispatches `0..C-1`), every dispatch future has
been settled at most once; a dispatched future is unsettled exactly while
its pending record (queue entry or activeJobs entry) exists; and a
success/error message whose chunk index has no pending record leaves the
pool state — and hence every future — completely unchanged (`if (!job)
return`), so no second settlement can occur. -/
theorem C6_futures_settle_at_most_once (n : ℕ) (tr : List PoolEvent)
    (hnd : (dispatchIndices tr).Nodup) :
    (∀ t, ((runPool n tr).futures t).settleCalls ≤ 1)
    ∧ (∀ t, t < (runPool n tr).nextToken →
        (((runPool n tr).futures t).settleCalls = 0 ↔ tokenPending (runPool n tr) t))
    ∧ (∀ (s : PoolState) (wid c : ℕ) (d : List ℕ) (msg : String),
        s.activeJobs c = none →
        handleWorkerMessage s wid (.success c d) = s
        ∧ handleWorkerMessage s wid (.failure c msg) = s) := by
  have hInv := poolInv_run n tr hnd
  refine ⟨hInv.calls_le_one, ?_, ?_⟩
  · intro t ht
    exact ⟨hInv.unsettled_pending t ht, hInv.pending_unsettled t⟩
  · intro s wid c d msg hac
    constructor <;> simp [handleWorkerMessage, hac]

/-- Witness for `C6_futures_settle_at_most_once`: two workers, three
dispatches (the third queued), worker 1 reports success for chunk 1 twice —
the duplicate message must not settle the future a second time — and a
stray message for the never-dispatched chunk 9 is ignored. -/
theorem C6_futures_settle_at_most_once_witness :
    ((runPool 2 [.dispatchEv 0, .dispatchEv 1, .dispatchEv 2,
        .msgEv 1 (.success 1 [9]), .msgEv 1 (.success 1 [9])]).futures 1).settleCalls ≤ 1
    ∧ handleWorkerMessage (runPool 2 [.dispatchEv 0]) 0 (.success 9 [])
        = runPool 2 [.dispatchEv 0] :=
  ⟨(C6_futures_settle_at_most_once 2 [.dispatchEv 0, .dispatchEv 1, .dispatchEv 2,
      .msgEv 1 (.success 1 [9]), .msgEv 1 (.success 1 [9])] (by decide)).1 1,
   ((C6_futures_settle_at_most_once 2 [.dispatchEv 0] (by decide)).2.2
      (runPool 2 [.dispatchEv 0]) 0 9 [] "" (by decide)).1⟩

namespace PurgoVox

/-! ### Parallel orchestrator
(`runMasteringPipelineParallel`, src/public/js/main/ffmpeg-pipeline.js)

The orchestrator mounts the input, runs sanitize → analyze → chunk
sequentially, reads every chunk and dispatches it to the pool, awaits
`Promise.all`, writes each result to `/work/processed_NNNN.mp3`, sorts the
file list with `Array.prototype.sort()` (default comparator: UTF-16
string order) and hands it to `concatenate`.  The engine-backed stages are
abstracted as an environment of outcomes; the join is modelled
operationally over an arbitrary future-settlement order. -/

/-- JS default sort comparator on strings: `a < b` by UTF-16 code units. -/
def jsStrLtB : List Char → List Char → Bool
  | [], [] => false
  | [], _ :: _ => true
  | _ :: _, [] => false
  | a :: as, b :: bs => if a < b then true else if b < a then false else jsStrLtB as bs

/-- The sort relation used to model `Array.prototype.sort()`: `a` does not
come strictly after `b`. -/
def jsStrLe (a b : List Char) : Prop := jsStrLtB b a = false

instance : DecidableRel jsStrLe := fun a b =>
  inferInstanceAs (Decidable (jsStrLtB b a = false))

/-- String comparison never holds in both directions. -/
theorem jsStrLtB_asymm : ∀ a b : List Char, jsStrLtB a b = true → jsStrLtB b a = false := by
  intro a
  induction a with
  | nil =>
    intro b h
    cases b with
    | nil => rfl
    | cons x xs => rfl
  | cons x xs ih =>
    intro b h
    cases b with
    | nil => simp [jsStrLtB] at h
    | cons y ys =>
      simp only [jsStrLtB] at h ⊢
      rcases lt_trichotomy x y with h1 | h1 | h1
      · rw [if_neg (lt_asymm h1), if_pos h1]
      · subst h1
        rw [if_neg (lt_irrefl x), if_neg (lt_irrefl x)] at h ⊢
        exact ih ys h
      · rw [if_neg (lt_asymm h1), if_pos h1] at h
        simp at h

/-- String comparison is transitive. -/
theorem jsStrLtB_trans : ∀ a b c : List Char,
    jsStrLtB a b = true → jsStrLtB b c = true → jsStrLtB a c = true := by
  intro a
  induction a with
  | nil =>
    intro b c hab hbc
    cases b with
    | nil => exact hbc
    | cons y ys =>
      cases c with
      | nil => simp [jsStrLtB] at hbc
      | cons z zs => rfl
  | cons x xs ih =>
    intro b c hab hbc
    cases b with
    | nil => simp [jsStrLtB] at hab
    | cons y ys =>
      cases c with
      | nil => simp [jsStrLtB] at hbc
      | cons z zs =>
        simp only [jsStrLtB] at hab hbc ⊢
        rcases lt_trichotomy x y with h1 | h1 | h1
        · rcases lt_trichotomy y z with h2 | h2 | h2
          · rw [if_pos (lt_trans h1 h2)]
          · subst h2
            rw [if_pos h1]
          · rw [if_neg (lt_asymm h2), if_pos h2] at hbc
            simp at hbc
        · subst h1
          rw [if_neg (lt_irrefl x), if_neg (lt_irrefl x)] at hab
          rcases lt_trichotomy x z with h2 | h2 | h2
          · rw [if_pos h2]
          · subst h2
            rw [if_neg (lt_irrefl x), if_neg (lt_irrefl x)] at hbc ⊢
            exact ih ys zs hab hbc
          · rw [if_neg (lt_asymm h2), if_pos h2] at hbc
            simp at hbc
        · rw [if_neg (lt_asymm h1), if_pos h1] at hab
          simp at hab

/-- Two strings that compare `false` both ways are equal. -/
theorem jsStrLtB_eq_of_not : ∀ a b : List Char,
    jsStrLtB a b = false → jsStrLtB b a = false → a = b := by
  intro a
  induction a with
  | nil =>
    intro b hab hba
    cases b with
    | nil => rfl
    | cons y ys => simp [jsStrLtB] at hab
  | cons x xs ih =>
    intro b hab hba
    cases b with
    | nil => simp [jsStrLtB] at hba
    | cons y ys =>
      simp only [jsStrLtB] at hab hba
      rcases lt_trichotomy x y with h1 | h1 | h1
      · rw [if_pos h1] at hab
        simp at hab
      · subst h1
        rw [if_neg (lt_irrefl x), if_neg (lt_irrefl x)] at hab hba
        rw [ih ys hab hba]
      · rw [if_pos h1] at hba
        simp at hba

instance : IsTotal (List Char) jsStrLe := by
  constructor
  intro a b
  cases h : jsStrLtB b a with
  | false => exact Or.inl h
  | true => exact Or.inr (jsStrLtB_asymm b a h)

instance : IsTrans (List Char) jsStrLe := by
  constructor
  intro a b c hab hbc
  show jsStrLtB c a = false
  cases hca : jsStrLtB c a with
  | false => rfl
  | true =>
    exfalso
    cases hcb : jsStrLtB c b with
    | true => exact absurd hcb (by rw [hbc]; simp)
    | false =>
      cases hba : jsStrLtB b a with
      | true => exact absurd hba (by rw [hab]; simp)
      | false =>
        cases hbc2 : jsStrLtB b c with
        | true =>
          have := jsStrLtB_trans b c a hbc2 hca
          rw [this] at hba
          exact absurd hba (by simp)
        | false =>
          have hbceq : b = c := jsStrLtB_eq_of_not b c hbc2 hcb
          rw [hbceq] at hba
          rw [hca] at hba
          exact absurd hba (by simp)

end PurgoVox

namespace PurgoVox

/-- Comparison ignores a shared prefix. -/
theorem jsStrLtB_append_left (p : List Char) (a b : List Char) :
    jsStrLtB (p ++ a) (p ++ b) = jsStrLtB a b := by
  induction p with
  | nil => rfl
  | cons c cs ih =>
    simp only [List.cons_append, jsStrLtB]
    rw [if_neg (lt_irrefl c), if_neg (lt_irrefl c)]
    exact ih

/-- Comparison with a shared suffix after equal-length bodies reduces to
comparing the bodies. -/
theorem jsStrLtB_append_same (s : List Char) :
    ∀ a b : List Char, a.length = b.length →
    jsStrLtB (a ++ s) (b ++ s) = jsStrLtB a b := by
  intro a
  induction a with
  | nil =>
    intro b hlen
    cases b with
    | nil =>
      simp only [List.nil_append]
      induction s with
      | nil => rfl
      | cons c cs ih =>
        simp only [jsStrLtB]
        rw [if_neg (lt_irrefl c), if_neg (lt_irrefl c)]
        exact ih
    | cons y ys => simp at hlen
  | cons x xs ih =>
    intro b hlen
    cases b with
    | nil => simp at hlen
    | cons y ys =>
      simp only [List.cons_append, jsStrLtB]
      rcases lt_trichotomy x y with h1 | h1 | h1
      · rw [if_pos h1, if_pos h1]
      · subst h1
        simp only [if_neg (lt_irrefl x)]
        exact ih ys (by simpa using hlen)
      · simp only [if_neg (lt_asymm h1), if_pos h1]

/-- With positive fuel, a one-digit number renders as its digit. -/
theorem natToCharsAux_small {fuel n : ℕ} (h : n < 10) (hf : 1 ≤ fuel) :
    natToCharsAux fuel n = [digitChar n] := by
  cases fuel with
  | zero => omega
  | succ f => simp [natToCharsAux, h]

/-- With positive fuel, a multi-digit number renders by splitting off its
last digit. -/
theorem natToCharsAux_step {fuel n : ℕ} (h : ¬n < 10) (hf : 1 ≤ fuel) :
    natToCharsAux fuel n = natToCharsAux (fuel - 1) (n / 10) ++ [digitChar (n % 10)] := by
  cases fuel with
  | zero => omega
  | succ f => simp [natToCharsAux, h]

/-- One-digit decimal rendering. -/
theorem natToChars_lt10 {n : ℕ} (h : n < 10) : natToChars n = [digitChar n] := by
  rw [natToChars, natToCharsAux_small h (by omega)]

/-- Two-digit decimal rendering. -/
theorem natToChars_lt100 {n : ℕ} (h1 : 10 ≤ n) (h2 : n < 100) :
    natToChars n = [digitChar (n / 10), digitChar (n % 10)] := by
  rw [natToChars, natToCharsAux_step (by omega) (by omega)]
  simp only [Nat.add_sub_cancel]
  rw [natToCharsAux_small (by omega) (by omega)]
  rfl

/-- Three-digit decimal rendering. -/
theorem natToChars_lt1000 {n : ℕ} (h1 : 100 ≤ n) (h2 : n < 1000) :
    natToChars n = [digitChar (n / 100), digitChar (n / 10 % 10), digitChar (n % 10)] := by
  rw [natToChars, natToCharsAux_step (by omega) (by omega)]
  simp only [Nat.add_sub_cancel]
  rw [natToCharsAux_step (show ¬n / 10 < 10 by omega) (by omega)]
  rw [natToCharsAux_small (show n / 10 / 10 < 10 by omega) (by omega)]
  simp only [List.cons_append, List.nil_append]
  rw [Nat.div_div_eq_div_mul]

/-- Four-digit decimal rendering. -/
theorem natToChars_lt10000 {n : ℕ} (h1 : 1000 ≤ n) (h2 : n < 10000) :
    natToChars n = [digitChar (n / 1000), digitChar (n / 100 % 10),
      digitChar (n / 10 % 10), digitChar (n % 10)] := by
  rw [natToChars, natToCharsAux_step (by omega) (by omega)]
  simp only [Nat.add_sub_cancel]
  rw [natToCharsAux_step (show ¬n / 10 < 10 by omega) (by omega)]
  rw [natToCharsAux_step (show ¬n / 10 / 10 < 10 by omega) (by omega)]
  rw [natToCharsAux_small (show n / 10 / 10 / 10 < 10 by omega) (by omega)]
  simp only [List.cons_append, List.nil_append]
  norm_num [Nat.div_div_eq_div_mul]

/-- The padded four-character digit block of an index below 10000. -/
theorem pad4_eq {n : ℕ} (h : n ≤ 9999) :
    pad4 n = [digitChar (n / 1000), digitChar (n / 100 % 10),
      digitChar (n / 10 % 10), digitChar (n % 10)] := by
  rcases Nat.lt_or_ge n 10 with h1 | h1
  · rw [pad4, natToChars_lt10 h1, padStart4]
    have e1 : n / 1000 = 0 := by omega
    have e2 : n / 100 % 10 = 0 := by omega
    have e3 : n / 10 % 10 = 0 := by omega
    have e4 : n % 10 = n := by omega
    rw [e1, e2, e3, e4]
    rfl
  rcases Nat.lt_or_ge n 100 with h2 | h2
  · rw [pad4, natToChars_lt100 h1 h2, padStart4]
    have e1 : n / 1000 = 0 := by omega
    have e2 : n / 100 % 10 = 0 := by omega
    have e3 : n / 10 % 10 = n / 10 := by omega
    rw [e1, e2, e3]
    rfl
  rcases Nat.lt_or_ge n 1000 with h3 | h3
  · rw [pad4, natToChars_lt1000 h2 h3, padStart4]
    have e1 : n / 1000 = 0 := by omega
    have e2 : n / 100 % 10 = n / 100 := by omega
    rw [e1, e2]
    rfl
  · rw [pad4, natToChars_lt10000 h3 (by omega), padStart4]
    rfl

end PurgoVox

namespace PurgoVox

/-- Comparing digit characters is comparing the digits. -/
theorem digitChar_lt_iff : ∀ d < 10, ∀ e < 10, (digitChar d < digitChar e ↔ d < e) := by
  decide

/-- Equal digits give equal digit characters. -/
theorem digitChar_congr {d e : ℕ} (h : d = e) : digitChar d = digitChar e := by
  rw [h]

/-- For indices up to 9999, the padded digit blocks compare like the
numbers. -/
theorem pad4_ltB {i j : ℕ} (hi : i ≤ 9999) (hj : j ≤ 9999) (hij : i < j) :
    jsStrLtB (pad4 i) (pad4 j) = true := by
  rw [pad4_eq hi, pad4_eq hj]
  simp only [jsStrLtB]
  have hd3 : i / 1000 ≤ j / 1000 := by omega
  by_cases h3 : i / 1000 < j / 1000
  · rw [if_pos ((digitChar_lt_iff (i / 1000) (by omega) (j / 1000) (by omega)).mpr h3)]
  · have e3 : i / 1000 = j / 1000 := by omega
    rw [digitChar_congr e3]
    simp only [if_neg (lt_irrefl (digitChar (j / 1000)))]
    have hd2 : i / 100 % 10 ≤ j / 100 % 10 := by omega
    by_cases h2 : i / 100 % 10 < j / 100 % 10
    · rw [if_pos ((digitChar_lt_iff (i / 100 % 10) (by omega) (j / 100 % 10) (by omega)).mpr h2)]
    · have e2 : i / 100 % 10 = j / 100 % 10 := by omega
      rw [digitChar_congr e2]
      simp only [if_neg (lt_irrefl (digitChar (j / 100 % 10)))]
      have hd1 : i / 10 % 10 ≤ j / 10 % 10 := by omega
      by_cases h1 : i / 10 % 10 < j / 10 % 10
      · rw [if_pos ((digitChar_lt_iff (i / 10 % 10) (by omega) (j / 10 % 10) (by omega)).mpr h1)]
      · have e1 : i / 10 % 10 = j / 10 % 10 := by omega
        rw [digitChar_congr e1]
        simp only [if_neg (lt_irrefl (digitChar (j / 10 % 10)))]
        have h0 : i % 10 < j % 10 := by omega
        rw [if_pos ((digitChar_lt_iff (i % 10) (by omega) (j % 10) (by omega)).mpr h0)]

/-- The file `/work/processed_NNNN.mp3` written for the mastered chunk. -/
def processedFilename (chunkIndex : ℕ) : List Char :=
  ("/work/processed_").toList ++ (pad4 chunkIndex ++ (".mp3").toList)

/-- Padded blocks of indices up to 9999 have length 4. -/
theorem pad4_length {n : ℕ} (h : n ≤ 9999) : (pad4 n).length = 4 := by
  rw [pad4_eq h]
  rfl

/-- Processed-chunk filenames for indices up to 9999 compare like the
indices. -/
theorem processedFilename_ltB {i j : ℕ} (hi : i ≤ 9999) (hj : j ≤ 9999) (hij : i < j) :
    jsStrLtB (processedFilename i) (processedFilename j) = true := by
  rw [processedFilename, processedFilename, jsStrLtB_append_left,
    jsStrLtB_append_same _ _ _ (by rw [pad4_length hi, pad4_length hj])]
  exact pad4_ltB hi hj hij

/-- The ascending list of processed filenames is sorted for the JS
comparator whenever at most 10000 chunks exist. -/
theorem processed_sorted {C : ℕ} (hC : C ≤ 10000) :
    List.Sorted jsStrLe (List.map processedFilename (List.range C)) := by
  rw [List.Sorted, List.pairwise_map]
  refine List.Pairwise.imp_of_mem ?_ (List.pairwise_lt_range C)
  intro a b ha hb hab
  have ha2 : a ≤ 9999 := by
    have := List.mem_range.mp ha
    omega
  have hb2 : b ≤ 9999 := by
    have := List.mem_range.mp hb
    omega
  exact jsStrLtB_asymm _ _ (processedFilename_ltB ha2 hb2 hab)

end PurgoVox

namespace PurgoVox

/-- An error propagated to the orchestrator's catch block: a sequential
stage threw, or a chunk future rejected with a pool error. -/
inductive OrchError where
  | stage (message : String)
  | chunkFailed (e : PoolError)
deriving DecidableEq

instance {α β : Type} [DecidableEq α] [DecidableEq β] : DecidableEq (Except α β) :=
  fun a b =>
    match a, b with
    | .ok x, .ok y => decidable_of_iff (x = y) (by simp)
    | .error x, .error y => decidable_of_iff (x = y) (by simp)
    | .ok _, .error _ => isFalse (by simp)
    | .error _, .ok _ => isFalse (by simp)

/-- Outcomes of the orchestrator's external collaborators: the sequential
stages, the per-chunk futures (by chunk index), the order in which those
futures settle, and the bytes of the final read. -/
structure OrchEnv where
  inputPath : List Char
  sanitizeRes : Except OrchError (List Char)
  analyzeRes : Except OrchError (ℚ × ChannelLayout)
  chunkRes : Except OrchError (List (List Char))
  chunkOutcome : ℕ → Except OrchError ChunkResult
  completionOrder : List ℕ
  finalData : List ℕ
  elapsed : ℚ

/-- The discriminated result returned to the caller: final audio with its
duration and the elapsed time, or an error with the elapsed time.  The
error constructor carries no chunk data. -/
inductive PipelineResult where
  | success (audioData : List ℕ) (audioDuration : ℚ) (executionTime : ℚ)
  | failure (error : OrchError) (executionTime : ℚ)
deriving DecidableEq

/-- Observable outcome of one orchestrator run: the returned result, the
`cleanupPaths` accumulated by the time `cleanup()` runs on the exit path,
and the sorted file list passed to `concatenate` (absent on error paths). -/
structure OrchRun where
  result : PipelineResult
  cleanupPaths : List (List Char)
  concatInput : Option (List (List Char))
deriving DecidableEq

/-- Value of a resolved future (only used once all futures resolved). -/
def okOr (e : Except OrchError ChunkResult) : ChunkResult :=
  match e with
  | .ok r => r
  | .error _ => ⟨0, []⟩

/-- Operational model of `Promise.all` over `C` chunk futures: process
settlements in completion order; the first rejection settles the join with
that error; once every index below `C` has resolved, the join resolves
with the results in positional (dispatch) order.  `none` means the join
never settles. -/
def joinAllAux (C : ℕ) (f : ℕ → Except OrchError ChunkResult) :
    List ℕ → List ℕ → Option (Except OrchError (List ChunkResult))
  | [], _ => none
  | i :: rest, resolved =>
    match f i with
    | .error e => some (.error e)
    | .ok _ =>
      let resolved2 := resolved ++ [i]
      if (List.range C).all (fun k => resolved2.contains k) then
        some (.ok ((List.range C).map (fun k => okOr (f k))))
      else joinAllAux C f rest resolved2

/-- `Promise.all` from an empty resolved set. -/
def joinAll (C : ℕ) (f : ℕ → Except OrchError ChunkResult) (order : List ℕ) :
    Option (Except OrchError (List ChunkResult)) :=
  joinAllAux C f order []

def finalMasteredPath : List Char := ("/work/final_mastered.mp3").toList

def concatListPath : List Char := ("/work/concat_list.txt").toList

/-- Embedding of `runMasteringPipelineParallel`
(src/public/js/main/ffmpeg-pipeline.js): the `try` block runs sanitize,
analyze and chunk in sequence — any throw lands in `catch`, which runs
`cleanup()` and returns `{error, executionTime}` — then dispatches all
chunks, awaits `Promise.all`, writes each result to
`/work/processed_NNNN.mp3` in result order, sorts the names with the
default string sort, and concatenates.  `none` means the run never
finishes (the join never settles). -/
def runMasteringPipelineParallel (env : OrchEnv) : Option OrchRun :=
  let cleanup0 := [env.inputPath]
  match env.sanitizeRes with
  | .error e => some ⟨.failure e env.elapsed, cleanup0, none⟩
  | .ok sanitizedAudioFile =>
    let cleanup1 := cleanup0 ++ [sanitizedAudioFile]
    match env.analyzeRes with
    | .error e => some ⟨.failure e env.elapsed, cleanup1, none⟩
    | .ok dl =>
      match env.chunkRes with
      | .error e => some ⟨.failure e env.elapsed, cleanup1, none⟩
      | .ok chunkFiles =>
        let cleanup2 := cleanup1 ++ chunkFiles
        match joinAll chunkFiles.length env.chunkOutcome env.completionOrder with
        | none => none
        | some (.error e) => some ⟨.failure e env.elapsed, cleanup2, none⟩
        | some (.ok processedResults) =>
          let processedFiles0 :=
            processedResults.map (fun r => processedFilename r.chunkIndex)
          let cleanup3 := cleanup2 ++ processedFiles0
          let processedFiles := List.insertionSort jsStrLe processedFiles0
          let cleanup4 := cleanup3 ++ [finalMasteredPath, concatListPath]
          some ⟨.success env.finalData dl.1 env.elapsed, cleanup4, some processedFiles⟩

end PurgoVox

namespace PurgoVox

/-- If some future below `C` rejects, has not resolved, and still appears
in the remaining completion order, the join settles with a rejection. -/
theorem joinAllAux_error (C : ℕ) (f : ℕ → Except OrchError ChunkResult)
    (k : ℕ) (hk : k < C) (e : OrchError) (hke : f k = .error e) :
    ∀ (σ resolved : List ℕ), k ∈ σ → k ∉ resolved →
    ∃ e2, joinAllAux C f σ resolved = some (.error e2) := by
  intro σ
  induction σ with
  | nil =>
    intro resolved hmem _
    exact absurd hmem (List.not_mem_nil k)
  | cons i rest ih =>
    intro resolved hmem hnres
    by_cases hik : i = k
    · subst hik
      exact ⟨e, by simp only [joinAllAux, hke]⟩
    · cases hfi : f i with
      | error e2 => exact ⟨e2, by simp only [joinAllAux, hfi]⟩
      | ok r =>
        simp only [joinAllAux, hfi]
        have hkres2 : k ∉ resolved ++ [i] := by
          intro hh
          rcases List.mem_append.mp hh with h1 | h1
          · exact hnres h1
          · simp only [List.mem_singleton] at h1
            exact hik h1.symm
        have hall : ((List.range C).all fun k2 => (resolved ++ [i]).contains k2) = false := by
          cases hall2 : (List.range C).all fun k2 => (resolved ++ [i]).contains k2 with
          | false => rfl
          | true =>
            exfalso
            have := List.all_eq_true.mp hall2 k (List.mem_range.mpr hk)
            simp only [List.contains, List.elem_iff] at this
            exact hkres2 this
        rw [if_neg (by rw [hall]; simp)]
        have hkrest : k ∈ rest := by
          rcases List.mem_cons.mp hmem with h1 | h1
          · exact absurd h1.symm hik
          · exact h1
        exact ih (resolved ++ [i]) hkrest hkres2

/-- If every future below `C` resolves and the completion order covers
all of them, the join resolves with the results in positional order. -/
theorem joinAllAux_ok (C : ℕ) (f : ℕ → Except OrchError ChunkResult)
    (g : ℕ → ChunkResult) (hok : ∀ i < C, f i = .ok (g i)) :
    ∀ (σ resolved : List ℕ),
    (∀ i ∈ σ, i < C) →
    (∀ k < C, k ∈ resolved ∨ k ∈ σ) →
    (∃ k0, k0 < C ∧ k0 ∉ resolved) →
    joinAllAux C f σ resolved = some (.ok ((List.range C).map g)) := by
  intro σ
  induction σ with
  | nil =>
    intro resolved _ hcov hex
    obtain ⟨k0, hk0, hk0r⟩ := hex
    rcases hcov k0 hk0 with h1 | h1
    · exact absurd h1 hk0r
    · exact absurd h1 (List.not_mem_nil k0)
  | cons i rest ih =>
    intro resolved hb hcov hex
    have hiC : i < C := hb i (List.mem_cons_self i rest)
    simp only [joinAllAux, hok i hiC]
    have hmap : ((List.range C).map fun k => okOr (f k)) = (List.range C).map g := by
      apply List.map_congr_left
      intro k hkmem
      rw [hok k (List.mem_range.mp hkmem)]
      rfl
    by_cases hall : ((List.range C).all fun k => (resolved ++ [i]).contains k) = true
    · rw [if_pos hall, hmap]
    · rw [if_neg hall]
      refine ih (resolved ++ [i]) (fun i2 hi2 => hb i2 (List.mem_cons_of_mem i hi2)) ?_ ?_
      · intro k hkC
        rcases hcov k hkC with h1 | h1
        · exact Or.inl (List.mem_append.mpr (Or.inl h1))
        · rcases List.mem_cons.mp h1 with h2 | h2
          · exact Or.inl (List.mem_append.mpr (Or.inr (by simp [h2])))
          · exact Or.inr h2
      · have : ∃ k0 ∈ List.range C, ¬((resolved ++ [i]).contains k0 = true) := by
          by_contra hcon
          push_neg at hcon
          exact hall (List.all_eq_true.mpr (fun k0 hk0 => hcon k0 hk0))
        obtain ⟨k0, hk0mem, hk0⟩ := this
        refine ⟨k0, List.mem_range.mp hk0mem, ?_⟩
        intro hmem2
        exact hk0 (by simp only [List.contains, List.elem_iff]; exact hmem2)

end PurgoVox

namespace PurgoVox

/-- Evaluation of the orchestrator on a run whose sequential stages
succeed, whose chunk futures all resolve (echoing their chunk index, as a
conformant worker does), and whose completion order covers every chunk:
the run returns success and passes the string-sorted processed-file list
to assembly. -/
theorem runParallel_success_eq (env : OrchEnv) (san : List Char) (d : ℚ)
    (l : ChannelLayout) (chunkFiles : List (List Char)) (dataF : ℕ → List ℕ)
    (hsan : env.sanitizeRes = .ok san)
    (hana : env.analyzeRes = .ok (d, l))
    (hchunks : env.chunkRes = .ok chunkFiles)
    (hok : ∀ i < chunkFiles.length, env.chunkOutcome i = .ok ⟨i, dataF i⟩)
    (hσb : ∀ i ∈ env.completionOrder, i < chunkFiles.length)
    (hσcov : ∀ k < chunkFiles.length, k ∈ env.completionOrder)
    (hC1 : 1 ≤ chunkFiles.length) :
    runMasteringPipelineParallel env = some
      ⟨.success env.finalData d env.elapsed,
       [env.inputPath] ++ [san] ++ chunkFiles
         ++ List.map processedFilename (List.range chunkFiles.length)
         ++ [finalMasteredPath, concatListPath],
       some (List.insertionSort jsStrLe
         (List.map processedFilename (List.range chunkFiles.length)))⟩ := by
  have hjoin : joinAll chunkFiles.length env.chunkOutcome env.completionOrder
      = some (.ok ((List.range chunkFiles.length).map
          (fun i => (⟨i, dataF i⟩ : ChunkResult)))) := by
    exact joinAllAux_ok chunkFiles.length env.chunkOutcome _ hok env.completionOrder []
      hσb (fun k hk => Or.inr (hσcov k hk)) ⟨0, hC1, List.not_mem_nil 0⟩
  simp only [runMasteringPipelineParallel, hsan, hana, hchunks, hjoin]
  rw [List.map_map]
  have hcomp : ((fun r => processedFilename r.chunkIndex)
      ∘ fun i => ({ chunkIndex := i, processedData := dataF i } : ChunkResult))
      = processedFilename := rfl
  rw [hcomp]

end PurgoVox

/-- Claim C1 (amended): for every chunk count `1 ≤ C ≤ 10000` and every
order in which the `C` dispatched chunk futures settle, the orchestrator's
final concatenation list passed to assembly is exactly the `C` mastered
chunk artifacts `/work/processed_0000.mp3 … /work/processed_<C-1>.mp3` in
strictly ascending chunkIndex order. -/
theorem C1_concat_input_ascending (env : OrchEnv) (san : List Char) (d : ℚ)
    (l : ChannelLayout) (chunkFiles : List (List Char)) (dataF : ℕ → List ℕ)
    (hsan : env.sanitizeRes = .ok san)
    (hana : env.analyzeRes = .ok (d, l))
    (hchunks : env.chunkRes = .ok chunkFiles)
    (hok : ∀ i < chunkFiles.length, env.chunkOutcome i = .ok ⟨i, dataF i⟩)
    (hσb : ∀ i ∈ env.completionOrder, i < chunkFiles.length)
    (hσcov : ∀ k < chunkFiles.length, k ∈ env.completionOrder)
    (hC1 : 1 ≤ chunkFiles.length) (hC2 : chunkFiles.length ≤ 10000) :
    runMasteringPipelineParallel env = some
      ⟨.success env.finalData d env.elapsed,
       [env.inputPath] ++ [san] ++ chunkFiles
         ++ List.map processedFilename (List.range chunkFiles.length)
         ++ [finalMasteredPath, concatListPath],
       some (List.map processedFilename (List.range chunkFiles.length))⟩ := by
  rw [runParallel_success_eq env san d l chunkFiles dataF hsan hana hchunks hok hσb hσcov hC1]
  rw [(processed_sorted hC2).insertionSort_eq]

namespace PurgoVox

/-- With more than 10000 chunks the string sort misorders the processed
files: `processed_10000.mp3` sorts between `processed_1000.mp3` and
`processed_1001.mp3`, so the sorted list differs from the ascending one. -/
theorem insertionSort_processed_10001_ne :
    List.insertionSort jsStrLe (List.map processedFilename (List.range 10001))
      ≠ List.map processedFilename (List.range 10001) := by
  intro heq
  have hsorted := List.sorted_insertionSort jsStrLe
    (List.map processedFilename (List.range 10001))
  rw [heq] at hsorted
  have h2 := List.pairwise_map.mp hsorted
  have h3 := (List.pairwise_iff_getElem.mp h2) 9999 10000
    (by simp) (by simp) (by omega)
  simp only [List.getElem_range] at h3
  have h4 : jsStrLtB (processedFilename 10000) (processedFilename 9999) = true := by
    decide
  rw [jsStrLe, h4] at h3
  exact absurd h3 (by simp)

/-- A concrete orchestrator environment with 3 chunks whose futures settle
out of order (2, then 0, then 1). -/
def envC1 : OrchEnv where
  inputPath := ("/work/input.mp3").toList
  sanitizeRes := .ok (("/work/sanitized_audio.wav").toList)
  analyzeRes := .ok (610, .stereo)
  chunkRes := .ok [("/work/chunk_000.wav").toList, ("/work/chunk_001.wav").toList,
    ("/work/chunk_002.wav").toList]
  chunkOutcome := fun i => .ok ⟨i, [i]⟩
  completionOrder := [2, 0, 1]
  finalData := [7]
  elapsed := 1000

/-- `runParallel_success_eq` restated for an environment given as an
explicit literal, so hypotheses mention the fields directly. -/
theorem runParallel_success_eq_mk (inputPath san : List Char) (d : ℚ)
    (l : ChannelLayout) (chunkFiles : List (List Char))
    (outcome : ℕ → Except OrchError ChunkResult) (order : List ℕ)
    (finalData : List ℕ) (elapsed : ℚ) (dataF : ℕ → List ℕ)
    (hok : ∀ i < chunkFiles.length, outcome i = .ok ⟨i, dataF i⟩)
    (hσb : ∀ i ∈ order, i < chunkFiles.length)
    (hσcov : ∀ k < chunkFiles.length, k ∈ order)
    (hC1 : 1 ≤ chunkFiles.length) :
    runMasteringPipelineParallel
      ⟨inputPath, .ok san, .ok (d, l), .ok chunkFiles, outcome, order, finalData, elapsed⟩
      = some
      ⟨.success finalData d elapsed,
       [inputPath] ++ [san] ++ chunkFiles
         ++ List.map processedFilename (List.range chunkFiles.length)
         ++ [finalMasteredPath, concatListPath],
       some (List.insertionSort jsStrLe
         (List.map processedFilename (List.range chunkFiles.length)))⟩ :=
  runParallel_success_eq
    ⟨inputPath, .ok san, .ok (d, l), .ok chunkFiles, outcome, order, finalData, elapsed⟩
    san d l chunkFiles dataF rfl rfl rfl hok hσb hσcov hC1

end PurgoVox

/-- Claim C1, counterexample at chunk count `C = 10001`: the orchestrator
run succeeds, but the concatenation list it passes to assembly is the
string-sorted name list, which is not in ascending chunkIndex order —
`padStart(4, '0')` only aligns lexicographic with numeric order up to
index 9999. -/
theorem C1_sort_misorders_at_10001_counterexample :
    Option.map OrchRun.concatInput (runMasteringPipelineParallel
      ⟨("/work/input.mp3").toList,
       .ok (("/work/sanitized_audio.wav").toList),
       .ok (3000300, .mono),
       .ok (List.replicate 10001 (("/work/chunk.wav").toList)),
       fun i => .ok ⟨i, []⟩,
       List.range 10001, [], 0⟩)
      = some (some (List.insertionSort jsStrLe
          (List.map processedFilename (List.range 10001))))
    ∧ List.insertionSort jsStrLe (List.map processedFilename (List.range 10001))
      ≠ List.map processedFilename (List.range 10001) := by
  constructor
  · have h := runParallel_success_eq_mk (("/work/input.mp3").toList)
      (("/work/sanitized_audio.wav").toList) 3000300 .mono
      (List.replicate 10001 (("/work/chunk.wav").toList))
      (fun i => .ok ⟨i, []⟩) (List.range 10001) [] 0 (fun _ => [])
      (fun i _ => rfl)
      (by
        intro i hi
        rw [List.length_replicate]
        exact List.mem_range.mp hi)
      (by
        intro k hk
        rw [List.length_replicate] at hk
        exact List.mem_range.mpr hk)
      (by rw [List.length_replicate]; omega)
    rw [h]
    rw [List.length_replicate]
    rfl
  · exact insertionSort_processed_10001_ne

/-- Witness for `C1_concat_input_ascending` at the 3-chunk environment
`envC1` whose futures settle in the order 2, 0, 1. -/
theorem C1_concat_input_ascending_witness :
    runMasteringPipelineParallel envC1 = some
      ⟨.success [7] 610 1000,
       [envC1.inputPath] ++ [("/work/sanitized_audio.wav").toList]
         ++ [("/work/chunk_000.wav").toList, ("/work/chunk_001.wav").toList,
             ("/work/chunk_002.wav").toList]
         ++ List.map processedFilename (List.range 3)
         ++ [finalMasteredPath, concatListPath],
       some (List.map processedFilename (List.range 3))⟩ :=
  C1_concat_input_ascending envC1 (("/work/sanitized_audio.wav").toList) 610 .stereo
    [("/work/chunk_000.wav").toList, ("/work/chunk_001.wav").toList,
     ("/work/chunk_002.wav").toList] (fun i => [i])
    rfl rfl rfl (fun i _ => rfl) (by decide) (by decide) (by decide) (by decide)

namespace PurgoVox

/-- Whether a pipeline result is the error variant. -/
def resultIsError : PipelineResult → Bool
  | .failure _ _ => true
  | .success _ _ _ => false

/-- The elapsed time carried by a pipeline result. -/
def resultTime : PipelineResult → ℚ
  | .failure _ t => t
  | .success _ _ t => t

/-- A concrete worker-reported failure message. -/
def boomMessage : String := "FFmpeg exited with code 1"

/-- A concrete 2-chunk orchestrator environment in which chunk 1's future
rejects first while chunk 0 succeeds. -/
def envC2 : OrchEnv where
  inputPath := ("/work/input.mp3").toList
  sanitizeRes := .ok (("/work/sanitized_audio.wav").toList)
  analyzeRes := .ok (600, .mono)
  chunkRes := .ok [("/work/chunk_000.wav").toList, ("/work/chunk_001.wav").toList]
  chunkOutcome := fun i =>
    if i = 0 then .ok ⟨0, [1]⟩ else .error (.chunkFailed (.workerReported boomMessage))
  completionOrder := [1, 0]
  finalData := []
  elapsed := 5

end PurgoVox

/-- Claim C2: if the sequential stages succeed but some dispatched chunk
future rejects (and that rejection is observed), the orchestrator run
settles with an error result carrying the elapsed time — never a partial
success: the result is the error variant (which carries no chunk data),
nothing is passed to assembly, and best-effort cleanup is attempted on
exactly the intermediates accumulated so far (input, sanitized file and
chunk files). -/
theorem C2_chunk_failure_fails_run (env : OrchEnv) (san : List Char) (d : ℚ)
    (l : ChannelLayout) (chunkFiles : List (List Char)) (k : ℕ) (e : OrchError)
    (hsan : env.sanitizeRes = .ok san)
    (hana : env.analyzeRes = .ok (d, l))
    (hchunks : env.chunkRes = .ok chunkFiles)
    (hk : k < chunkFiles.length)
    (hke : env.chunkOutcome k = .error e)
    (hkσ : k ∈ env.completionOrder) :
    Option.map (fun r => resultIsError r.result) (runMasteringPipelineParallel env) = some true
    ∧ Option.map (fun r => resultTime r.result) (runMasteringPipelineParallel env)
        = some env.elapsed
    ∧ Option.map OrchRun.concatInput (runMasteringPipelineParallel env) = some none
    ∧ Option.map OrchRun.cleanupPaths (runMasteringPipelineParallel env)
        = some ([env.inputPath] ++ [san] ++ chunkFiles) := by
  obtain ⟨e2, hj⟩ := joinAllAux_error chunkFiles.length env.chunkOutcome k hk e hke
    env.completionOrder [] hkσ (List.not_mem_nil k)
  have hj2 : joinAll chunkFiles.length env.chunkOutcome env.completionOrder
      = some (.error e2) := hj
  simp only [runMasteringPipelineParallel, hsan, hana, hchunks, hj2]
  refine ⟨rfl, rfl, rfl, ?_⟩
  simp [resultIsError, resultTime, List.append_assoc]

/-- Witness for `C2_chunk_failure_fails_run` at `envC2`, where chunk 1
rejects before chunk 0 resolves. -/
theorem C2_chunk_failure_fails_run_witness :
    Option.map (fun r => resultIsError r.result) (runMasteringPipelineParallel envC2)
        = some true
    ∧ Option.map (fun r => resultTime r.result) (runMasteringPipelineParallel envC2)
        = some envC2.elapsed
    ∧ Option.map OrchRun.concatInput (runMasteringPipelineParallel envC2) = some none
    ∧ Option.map OrchRun.cleanupPaths (runMasteringPipelineParallel envC2)
        = some ([envC2.inputPath] ++ [("/work/sanitized_audio.wav").toList]
            ++ [("/work/chunk_000.wav").toList, ("/work/chunk_001.wav").toList]) :=
  C2_chunk_failure_fails_run envC2 (("/work/sanitized_audio.wav").toList) 600 .mono
    [("/work/chunk_000.wav").toList, ("/work/chunk_001.wav").toList] 1
    (.chunkFailed (.workerReported boomMessage))
    rfl rfl rfl (by decide) rfl (by decide)
